import Mathlib

/-!
Verification of the photosort analysis pipeline
(src/services/analysisService.ts, src/unnamed/part_003).

Shallow embedding conventions:
* JavaScript numbers are modelled as exact rationals (ℚ); every constant in
  the source is an exact decimal, and all comparisons in the claims stay
  away from floating-point rounding boundaries.
* Image ids are opaque unique string tokens in the source; only equality
  and a strict total order on ids are ever used (the pair-key
  canonicalisation), so ids are modelled as naturals.
* JavaScript Map objects are modelled as association lists with
  JS semantics: set replaces an existing key in place, a new key is
  appended at the end, and iteration follows insertion order.
-/

namespace PhotoSort

/-! ## Association-list maps (JS Map semantics) -/

def alookup (k : Nat) : List (Nat × α) → Option α
  | [] => none
  | (k2, v) :: rest => if k = k2 then some v else alookup k rest

def mapSet (m : List (Nat × α)) (k : Nat) (v : α) : List (Nat × α) :=
  match m with
  | [] => [(k, v)]
  | (k2, v2) :: rest => if k2 = k then (k, v) :: rest else (k2, v2) :: mapSet rest k v

/-! ## Hamming distance and similarity
    (analysisService.ts, hammingDistance / similarity, 256-bit version) -/

/-- The bit-counting loop of hammingDistance
(while xor is nonzero: add its lowest bit, shift right), with explicit
fuel; fuel n always suffices to drain n. -/
def popCountAux : Nat → Nat → Nat
  | 0, _ => 0
  | fuel + 1, n => if n = 0 then 0 else n % 2 + popCountAux fuel (n / 2)

def popCount (n : Nat) : Nat := popCountAux n n

/-- hammingDistance: sum of per-byte popcounts of xor; the source loop
runs over the indices of the first array, which for equal-length
fingerprints is exactly the element-wise zip. -/
def hammingDistance (a b : List Nat) : Nat :=
  ((a.zip b).map (fun p => popCount (p.1 ^^^ p.2))).sum

/-- HASH_BITS = 256 (16x16 hash). -/
def HASH_BITS : Nat := 256

/-- similarity = 1 - dist / HASH_BITS. -/
def similarity (a b : List Nat) : ℚ :=
  1 - (hammingDistance a b : ℚ) / (HASH_BITS : ℚ)

/-- All-zero 32-byte fingerprint. -/
def fpZero : List Nat := List.replicate 32 0

/-- All-ones 32-byte fingerprint. -/
def fpOnes : List Nat := List.replicate 32 255

/-! ## Feature extractor worker (src/unnamed/part_003)

The worker receives a decoded bitmap; the canvas decode/resample steps are
outside the model. The model starts from the downsampled pixel buffer
(`qualPixels`, w×h row-major RGB; alpha is never read) plus the original
bitmap dimensions, exactly the data `computeBlurScore`,
`computeExposureScore` and `classifyImage` consume. -/

/-- JS Math.round: round half toward positive infinity. -/
def jround (q : ℚ) : ℤ := ⌊q + 1/2⌋

/-- JS Math.round on the reals (the exposure path goes through Math.sqrt). -/
noncomputable def jroundR (x : ℝ) : ℤ := ⌊x + 1/2⌋

structure Pixel where
  r : Nat
  g : Nat
  b : Nat
deriving DecidableEq

/-- Luminance 0.299R + 0.587G + 0.114B. -/
def lum (p : Pixel) : ℚ := 0.299 * p.r + 0.587 * p.g + 0.114 * p.b

/-- Histogram bin of a pixel: min(255, round(luminance)). -/
def lumBin (p : Pixel) : Nat := min 255 (jround (lum p)).toNat

/-- The 256-bin luminance histogram built in the worker's main loop. -/
def histo (pixels : List Pixel) (bin : Nat) : Nat :=
  (pixels.filter (fun p => lumBin p = bin)).length

/-- The grayscale buffer: gray[i] = luminance of pixel i. -/
def grayAt (pixels : List Pixel) (i : Nat) : ℚ :=
  (pixels.map lum).getD i 0

/-! ### computeBlurScore (part_003 lines 241-265: global Laplacian variance) -/

/-- Laplacian response at interior position (x, y):
gray[idx-w] + gray[idx-1] - 4*gray[idx] + gray[idx+1] + gray[idx+w]. -/
def lapAt (g : Nat → ℚ) (w x y : Nat) : ℚ :=
  g ((y - 1) * w + x) + g (y * w + x - 1) - 4 * g (y * w + x) +
    g (y * w + x + 1) + g ((y + 1) * w + x)

/-- All Laplacian responses over the interior, in loop order
(y from 1 to h-2, x from 1 to w-2). -/
def lapsOf (g : Nat → ℚ) (w h : Nat) : List ℚ :=
  (List.range' 1 (h - 2)).flatMap fun y =>
    (List.range' 1 (w - 2)).map fun x => lapAt g w x y

/-- computeBlurScore: variance of the Laplacian responses, mapped through
min(variance/800, 1) * 100 and rounded; 50 when the interior is empty. -/
def computeBlurScore (g : Nat → ℚ) (w h : Nat) : ℤ :=
  let laps := lapsOf g w h
  let count : Nat := laps.length
  if count = 0 then 50
  else
    let sum := laps.sum
    let sumSq := (laps.map fun t => t * t).sum
    let mean := sum / count
    let variance := sumSq / count - mean * mean
    jround (min (variance / 800) 1 * 100)

/-! ### computeExposureScore (part_003 lines 267-291) -/

def exposureSum (hist : Nat → Nat) : ℚ :=
  ((List.range 256).map fun (i : Nat) => (i : ℚ) * (hist i : ℚ)).sum

def exposureSumSq (hist : Nat → Nat) : ℚ :=
  ((List.range 256).map fun (i : Nat) => (i : ℚ) * (i : ℚ) * (hist i : ℚ)).sum

def exposureMean (hist : Nat → Nat) (totalPixels : Nat) : ℚ :=
  exposureSum hist / totalPixels

def exposureVariance (hist : Nat → Nat) (totalPixels : Nat) : ℚ :=
  exposureSumSq hist / totalPixels - exposureMean hist totalPixels * exposureMean hist totalPixels

noncomputable def exposureStd (hist : Nat → Nat) (totalPixels : Nat) : ℝ :=
  Real.sqrt (max 0 (exposureVariance hist totalPixels))

def meanPenalty (hist : Nat → Nat) (totalPixels : Nat) : ℚ :=
  1 - |exposureMean hist totalPixels - 128| / 128

noncomputable def spreadScore (hist : Nat → Nat) (totalPixels : Nat) : ℝ :=
  min (exposureStd hist totalPixels / 60) 1

def darkClip (hist : Nat → Nat) : Nat := ((List.range 10).map hist).sum

def brightClip (hist : Nat → Nat) : Nat := ((List.range' 246 10).map hist).sum

def clipPenalty (hist : Nat → Nat) (totalPixels : Nat) : ℚ :=
  1 - min 1 (((darkClip hist : ℚ) + brightClip hist) / totalPixels * 3)

/-- computeExposureScore: weighted sum of the penalties, scaled to 100 and
clamped to [0, 100]. -/
noncomputable def computeExposureScore (hist : Nat → Nat) (totalPixels : Nat) : ℝ :=
  max 0 (min 100
    ((0.5 * (meanPenalty hist totalPixels : ℝ) + 0.3 * spreadScore hist totalPixels +
      0.2 * max 0 (clipPenalty hist totalPixels : ℝ)) * 100))

/-! ### Type classification (part_003 lines 119-237) -/

inductive PhotoType where
  | photo
  | screenshot
  | document
deriving DecidableEq

/-- Fraction of near-white pixels: histogram mass of bins 220-255 over the
total pixel count. -/
def whitePct (hist : Nat → Nat) (totalPixels : Nat) : ℚ :=
  ((List.range' 220 36).map hist).sum / totalPixels

/-- 4-bit-per-channel quantized colour bucket (r>>4)<<8 | (g>>4)<<4 | (b>>4). -/
def colorKey (p : Pixel) : Nat :=
  p.r / 16 * 256 + p.g / 16 * 16 + p.b / 16

/-- Number of distinct quantized colour buckets. -/
def colorCount (pixels : List Pixel) : Nat :=
  (pixels.map colorKey).toFinset.card

/-- Aspect as max(origW, origH) / min(origW, origH). -/
def aspectMM (origW origH : Nat) : ℚ :=
  (max origW origH : ℚ) / (min origW origH : ℚ)

/-- Document aspect test: within 0.15 of A4 (1.414) or Letter (1.294). -/
def docAR (origW origH : Nat) : Prop :=
  |aspectMM origW origH - 1.414| < 0.15 ∨ |aspectMM origW origH - 1.294| < 0.15

instance (origW origH : Nat) : Decidable (docAR origW origH) := by
  unfold docAR; infer_instance

/-- isDocument: the two early-return branches folded into a disjunction. -/
def isDocument (pixels : List Pixel) (totalPixels origW origH : Nat)
    (hist : Nat → Nat) : Prop :=
  (whitePct hist totalPixels > 0.55 ∧ colorCount pixels < 150) ∨
  (docAR origW origH ∧ whitePct hist totalPixels > 0.45 ∧ colorCount pixels < 250)

instance (pixels : List Pixel) (totalPixels origW origH : Nat) (hist : Nat → Nat) :
    Decidable (isDocument pixels totalPixels origW origH hist) := by
  unfold isDocument; infer_instance

/-- The fixed table of screen aspect values (landscape, portrait, phones). -/
def screenAspects : List ℚ :=
  [16/9, 16/10, 4/3, 3/2, 9/16, 10/16, 3/4, 2/3, 19.5/9, 9/19.5, 20/9, 9/20]

def hasScreenAR (origW origH : Nat) : Prop :=
  ∃ r ∈ screenAspects, |(origW : ℚ) / (origH : ℚ) - r| < 0.05

instance (origW origH : Nat) : Decidable (hasScreenAR origW origH) := by
  unfold hasScreenAR; infer_instance

/-- Number of band pixels whose combined RGB delta to the band's first pixel
exceeds 30. -/
def bandDiffCount (pixels : List Pixel) (w yStart yEnd : Nat) : Nat :=
  let p0 := pixels.getD (yStart * w) ⟨0, 0, 0⟩
  (((List.range' yStart (yEnd - yStart)).flatMap fun y =>
      (List.range w).map fun x => pixels.getD (y * w + x) ⟨0, 0, 0⟩).filter
    fun p => 30 < |(p.r : ℤ) - p0.r| + |(p.g : ℤ) - p0.g| + |(p.b : ℤ) - p0.b|).length

/-- isBandUniform: false for degenerate bands; otherwise the early-exit
counting loop is equivalent to: at most 15% of the sampled pixels deviate. -/
def isBandUniform (pixels : List Pixel) (w yStart yEnd : Nat) : Prop :=
  yStart < yEnd ∧ 2 ≤ yEnd - yStart ∧
  (bandDiffCount pixels w yStart yEnd : ℚ) ≤ ((yEnd - yStart) * w : ℚ) * 0.15

instance (pixels : List Pixel) (w yStart yEnd : Nat) :
    Decidable (isBandUniform pixels w yStart yEnd) := by
  unfold isBandUniform; infer_instance

/-- The fixed table of common exact screen/device resolutions. -/
def commonRes : List (Nat × Nat) :=
  [(1920, 1080), (2560, 1440), (1366, 768), (1280, 720),
   (1080, 1920), (1170, 2532), (1284, 2778), (1290, 2796),
   (1440, 2560), (1440, 3200), (750, 1334), (1125, 2436),
   (828, 1792), (1242, 2688), (1080, 2400), (1080, 2340),
   (2048, 2732), (1668, 2388), (1620, 2160)]

/-- Height of the sampled top/bottom band: min(round(h * 0.06), 8). -/
def bandH (h : Nat) : Nat := min (jround ((h : ℚ) * 0.06)).toNat 8

/-- isScreenshot: screen aspect required, then uniform top/bottom band or an
exact common resolution (early returns folded into a disjunction). -/
def isScreenshot (pixels : List Pixel) (w h origW origH : Nat) : Prop :=
  hasScreenAR origW origH ∧
  (isBandUniform pixels w 0 (bandH h) ∨
   isBandUniform pixels w (h - bandH h) h ∨
   (origW, origH) ∈ commonRes)

instance (pixels : List Pixel) (w h origW origH : Nat) :
    Decidable (isScreenshot pixels w h origW origH) := by
  unfold isScreenshot; infer_instance

/-- classifyImage: document checked first, then screenshot, photo default. -/
def classifyImage (pixels : List Pixel) (w h origW origH : Nat)
    (hist : Nat → Nat) : PhotoType :=
  if isDocument pixels (w * h) origW origH hist then .document
  else if isScreenshot pixels w h origW origH then .screenshot
  else .photo

/-! ### The worker response (part_003 onmessage, lines 92-107) -/

structure WorkerResponse where
  blurScore : ℤ
  exposureScore : ℤ
  qualityScore : ℤ
  photoType : PhotoType

/-- Internal (pre-rounding) blur score; computeBlurScore already rounds. -/
def blurVal (pixels : List Pixel) (w h : Nat) : ℤ :=
  computeBlurScore (grayAt pixels) w h

/-- Internal (pre-rounding) exposure score. -/
noncomputable def exposureVal (pixels : List Pixel) (w h : Nat) : ℝ :=
  computeExposureScore (histo pixels) (w * h)

/-- The response fields assembled by onmessage:
qualityScore = round(0.7 * blurScore + 0.3 * exposureScore) using the
unrounded values, while blurScore and exposureScore are rounded for the
response. -/
noncomputable def analyzeWorker (pixels : List Pixel) (w h origW origH : Nat) :
    WorkerResponse :=
  { blurScore := jround (blurVal pixels w h : ℚ)
    exposureScore := jroundR (exposureVal pixels w h)
    qualityScore := jroundR (0.7 * ((blurVal pixels w h : ℚ) : ℝ) +
      0.3 * exposureVal pixels w h)
    photoType := classifyImage pixels w h origW origH (histo pixels) }

/-- A 1x1 all-black image. -/
def blackOne : List Pixel := [⟨0, 0, 0⟩]

/-- A 3x3 uniform mid-gray (141) image: the quality score computed by the
worker differs from round(0.7 * blurScore + 0.3 * exposureScore) formed
from the reported (rounded) fields. -/
def uniformGray : List Pixel := List.replicate 9 ⟨141, 141, 141⟩

/-! ### Claim C8: the document classification rule -/

/-- A pure white downsampled buffer standing for an 800x1000 white image. -/
def pureWhite : List Pixel := List.replicate 20 ⟨255, 255, 255⟩

/-! ## Clustering engine (analysisService.ts: buildDateBuckets,
compareAndGroup, union/find)

Progress reporting (onProgress, pairsChecked, estimatePairs, the 66 ms
throttle) has no effect on the returned groups and is not modelled.
The AbortSignal is modelled separately with the orchestrator (see the
analyzePhotos model below); the clustering claims are about completed runs.
The union-find state additionally carries a ghost log of the unions that
actually merged two roots; the log is written exactly when the source
mutates parent/groupSimilarity and never read back by the algorithm. -/

structure Photo where
  id : Nat
  createdAt : Option Int
deriving DecidableEq

structure HashResult where
  id : Nat
  hash : List Nat
deriving DecidableEq

/-- An output group: the random uuid id field of the source is omitted
(never inspected by any claim); photos and similarity are kept. -/
structure SimilarityGroup where
  photos : List Photo
  similarity : ℚ
deriving DecidableEq

/-- photoMap.get: a JS Map built from (p.id, p) entries keeps the last entry
for a duplicated key. createdAt models the parsed timestamp
new Date(p.createdAt).getTime(); none covers both a missing field and an
unparseable (NaN) one. -/
def photoFind (photos : List Photo) (i : Nat) : Option Photo :=
  photos.foldl (fun acc p => if p.id = i then some p else acc) none

def DAY_MS : Int := 24 * 60 * 60 * 1000

inductive BKey where
  | day (d : Int)
  | unknown
  | all
deriving DecidableEq

/-- buckets.get(key)!.push(h), creating the bucket at the end on a miss. -/
def bucketsAdd (bs : List (BKey × List HashResult)) (k : BKey) (h : HashResult) :
    List (BKey × List HashResult) :=
  match bs with
  | [] => [(k, [h])]
  | (k2, v) :: rest =>
    if k2 = k then (k2, v ++ [h]) :: rest else (k2, v) :: bucketsAdd rest k h

/-- One iteration of the bucket-building loop: place a hash into its day
bucket and the two adjacent day buckets, or into the unknown bucket when
the photo or its timestamp is missing. Math.floor(time / DAY_MS) is the
flooring integer division. -/
def distributeHash (photos : List Photo)
    (st : List (BKey × List HashResult) × List HashResult) (h : HashResult) :
    List (BKey × List HashResult) × List HashResult :=
  match photoFind photos h.id with
  | none => (st.1, st.2 ++ [h])
  | some p =>
    match p.createdAt with
    | none => (st.1, st.2 ++ [h])
    | some t =>
      let d := t.fdiv DAY_MS
      let b1 := bucketsAdd st.1 (BKey.day (d - 1)) h
      let b2 := bucketsAdd b1 (BKey.day d) h
      let b3 := bucketsAdd b2 (BKey.day (d + 1)) h
      (b3, st.2)

/-- buildDateBuckets; unknown > hashes.length * 0.5 is the integer
comparison 2 * unknown > hashes.length. -/
def buildDateBuckets (hashes : List HashResult) (photos : List Photo) :
    List (BKey × List HashResult) :=
  let st := hashes.foldl (distributeHash photos) ([], [])
  if st.1.length = 0 ∨ 2 * st.2.length > hashes.length then [(BKey.all, hashes)]
  else if st.2 = [] then st.1
  else st.1 ++ [(BKey.unknown, st.2)]

/-! ### Union-find -/

/-- Ghost record of one effective union: the two argument ids, the two
roots found (rootA received rootB), and the pair similarity. -/
structure UEvent where
  a : Nat
  b : Nat
  rootA : Nat
  rootB : Nat
  sim : ℚ
deriving DecidableEq

structure UFState where
  parent : List (Nat × Nat)
  gsim : List (Nat × ℚ)
  events : List UEvent
deriving DecidableEq

/-- The recursive find with path compression, with explicit fuel (the
source recursion terminates because parent chains are acyclic; fuel
m.length + 1 bounds any acyclic chain). Mirrors:
if absent, set x -> x; if parent is x, return x; else recurse on the
parent and overwrite x with the root found. -/
def findAux : Nat → List (Nat × Nat) → Nat → Nat × List (Nat × Nat)
  | 0, m, x => (x, m)
  | fuel + 1, m, x =>
    match alookup x m with
    | none => (x, mapSet m x x)
    | some p =>
      if p = x then (x, m)
      else
        let r := findAux fuel m p
        (r.1, mapSet r.2 x r.1)

def ufFind (m : List (Nat × Nat)) (x : Nat) : Nat × List (Nat × Nat) :=
  findAux (m.length + 1) m x

/-- groupSimilarity.get(r) ?? 1. -/
def gsimGet (g : List (Nat × ℚ)) (r : Nat) : ℚ := (alookup r g).getD 1

/-- union(a, b, sim): find both roots; when different, point rootB at
rootA and record min(current, sim) at rootA. -/
def ufUnion (st : UFState) (a b : Nat) (sim : ℚ) : UFState :=
  let fa := ufFind st.parent a
  let fb := ufFind fa.2 b
  if fa.1 = fb.1 then { st with parent := fb.2 }
  else
    { parent := mapSet fb.2 fb.1 fa.1
      gsim := mapSet st.gsim fa.1 (min (gsimGet st.gsim fa.1) sim)
      events := st.events ++ [⟨a, b, fa.1, fb.1, sim⟩] }

/-! ### The comparison loop -/

structure CmpState where
  uf : UFState
  compared : List (Nat × Nat)
deriving DecidableEq

/-- The canonical unordered pair key a.id < b.id ? a:b : b:a. -/
def pairKey (a b : Nat) : Nat × Nat := if a < b then (a, b) else (b, a)

/-- The body of the inner comparison loop for one pair: skip self-pairs,
skip already-compared keys, otherwise record the key, score the pair and
union when sim >= threshold. -/
def cmpStep (threshold : ℚ) (st : CmpState) (pr : HashResult × HashResult) :
    CmpState :=
  if pr.1.id = pr.2.id then st
  else
    let key := pairKey pr.1.id pr.2.id
    if key ∈ st.compared then st
    else
      let st2 : CmpState := { st with compared := st.compared ++ [key] }
      let sim := similarity pr.1.hash pr.2.hash
      if threshold ≤ sim then
        { st2 with uf := ufUnion st2.uf pr.1.id pr.2.id sim }
      else st2

/-- All unordered pairs (i, j), i < j, of a bucket in loop order. -/
def allPairs : List α → List (α × α)
  | [] => []
  | x :: xs => (xs.map fun y => (x, y)) ++ allPairs xs

def emptyCmp : CmpState := ⟨⟨[], [], []⟩, []⟩

/-- Run the full comparison pass over the bucket list. -/
def runBuckets (threshold : ℚ) (buckets : List (List HashResult)) : CmpState :=
  (buckets.flatMap allPairs).foldl (cmpStep threshold) emptyCmp

/-! ### Group materialization -/

/-- groupMembers.get(root)!.push(id), creating the entry at the end. -/
def gmPush (gm : List (Nat × List Nat)) (root i : Nat) : List (Nat × List Nat) :=
  match gm with
  | [] => [(root, [i])]
  | (r, ms) :: rest =>
    if r = root then (r, ms ++ [i]) :: rest else (r, ms) :: gmPush rest root i

/-- The collection loop: for each hash, find its root (the find keeps
compressing, so the parent map is threaded through) and append the id
under that root. -/
def collectMembers (hashes : List HashResult) (m : List (Nat × Nat)) :
    List (Nat × List Nat) × List (Nat × Nat) :=
  hashes.foldl
    (fun st h =>
      let fr := ufFind st.2 h.id
      (gmPush st.1 fr.1 h.id, fr.2))
    ([], m)

/-- [...new Set(memberIds)]: dedup keeping first occurrences. -/
def dedupFirst (l : List Nat) : List Nat :=
  l.foldl (fun acc x => if x ∈ acc then acc else acc ++ [x]) []

/-- Materialize one group from a groupMembers entry: drop entries with
fewer than 2 member ids, dedup, resolve photos through photoMap (dropping
unknown ids), drop groups with fewer than 2 resolved photos, and attach
groupSimilarity.get(root) ?? threshold. -/
def mkGroup (photos : List Photo) (threshold : ℚ) (gsim : List (Nat × ℚ))
    (root : Nat) (memberIds : List Nat) : Option SimilarityGroup :=
  if memberIds.length < 2 then none
  else
    let uniqueIds := dedupFirst memberIds
    let groupPhotos := uniqueIds.filterMap (photoFind photos)
    if groupPhotos.length < 2 then none
    else some ⟨groupPhotos, (alookup root gsim).getD threshold⟩

/-- groups.sort((a, b) => b.photos.length - a.photos.length): a stable sort
by descending photo count. -/
def sortGroups (gs : List SimilarityGroup) : List SimilarityGroup :=
  gs.mergeSort fun g1 g2 => decide (g2.photos.length ≤ g1.photos.length)

/-- compareAndGroup with an explicit bucket structure (the bucket values in
iteration order). -/
def compareAndGroupWith (hashes : List HashResult) (photos : List Photo)
    (threshold : ℚ) (buckets : List (List HashResult)) : List SimilarityGroup :=
  let st := runBuckets threshold buckets
  let cm := collectMembers hashes st.uf.parent
  sortGroups (cm.1.filterMap fun rm => mkGroup photos threshold st.uf.gsim rm.1 rm.2)

/-- The comparison phase as shipped: date bucketing feeding the loop. -/
def compareAndGroup (hashes : List HashResult) (photos : List Photo)
    (threshold : ℚ) : List SimilarityGroup :=
  compareAndGroupWith hashes photos threshold
    ((buildDateBuckets hashes photos).map (·.2))

/-! ## Claim C10: groups are pairwise disjoint for distinct input ids -/

/-- The multiset of ids stored in a groupMembers map. -/
def gmFlat (gm : List (Nat × List Nat)) : List Nat :=
  (gm.map Prod.snd).flatten

/-! ### Concrete clustering run used by the witnesses -/

def fourPhotos : List Photo := [⟨1, none⟩, ⟨2, none⟩, ⟨3, none⟩, ⟨4, none⟩]

def fourHashes : List HashResult :=
  [⟨1, fpZero⟩, ⟨2, fpZero⟩, ⟨3, fpOnes⟩, ⟨4, fpOnes⟩]

/-! ## Union-find theory

The parent map of the source is an acyclic functional graph; `ChasesN m n x r`
says the parent chain starting at x reaches the root r in n steps (a root is
a node that is absent from the map or maps to itself, exactly the two
conditions under which the source find returns its argument). -/

def keysOf (m : List (Nat × α)) : List Nat := m.map Prod.fst

/-- A node is a root when it is absent from the map or points to itself. -/
def IsRoot (m : List (Nat × Nat)) (r : Nat) : Prop :=
  alookup r m = none ∨ alookup r m = some r

/-- The parent chain from x reaches root r in exactly n steps. -/
inductive ChasesN (m : List (Nat × Nat)) : Nat → Nat → Nat → Prop where
  | root (x : Nat) (h : IsRoot m x) : ChasesN m 0 x x
  | step (x p r n : Nat) (h : alookup x m = some p) (hne : p ≠ x)
      (ht : ChasesN m n p r) : ChasesN m (n + 1) x r

def Chases (m : List (Nat × Nat)) (x r : Nat) : Prop := ∃ n, ChasesN m n x r

/-- Well-formed parent map: every chain reaches a root. -/
def WFp (m : List (Nat × Nat)) : Prop :=
  ∀ x, ∃ r, Chases m x r

/-- Every non-trivial parent edge points at a node with a recorded group
similarity (the receiving root of some union). -/
def EInv (parent : List (Nat × Nat)) (gs : List (Nat × ℚ)) : Prop :=
  ∀ y p, alookup y parent = some p → p ≠ y → (alookup p gs).isSome

/-! ### The group-similarity accounting invariant -/

/-- The running minimum the source keeps per root: fold of min with
initial value 1 (groupSimilarity.get(rootA) ?? 1). -/
def minEv (sims : List ℚ) : ℚ := sims.foldl min 1

/-- The recorded group similarity of a root r is exactly the minimum of
the similarities of the unions whose receiving root was r (absent when no
union was received). -/
def GInv (uf : UFState) : Prop :=
  ∀ r, alookup r uf.gsim =
    if (uf.events.filter (fun e => e.rootA = r)).isEmpty then none
    else some (minEv ((uf.events.filter (fun e => e.rootA = r)).map UEvent.sim))

def StInv (st : CmpState) : Prop :=
  WFp st.uf.parent ∧ EInv st.uf.parent st.uf.gsim ∧ GInv st.uf

/-! ### Claim C1, the counterexample run

Five photos in one bucket. Ids 1 and 2 merge first (similarity 231/256),
then 5 joins them (246/256); ids 3 and 4 merge separately (1); finally the
pair (3,5) merges the two components with receiving root 3, which discards
the 231/256 record held by the absorbed root 1. The emitted similarity is
59/64 = 236/256 although a union of similarity 231/256 < 59/64 built the
group. -/

def cxHashA : List Nat := [255, 255, 255, 128] ++ List.replicate 28 0

def cxHashE : List Nat := [255, 255, 255, 128, 255, 192] ++ List.replicate 26 0

def cxHashC : List Nat :=
  [255, 255, 255, 128, 255, 192, 0, 0, 255, 255, 240] ++ List.replicate 21 0

def cxPhotos : List Photo :=
  [⟨1, none⟩, ⟨2, none⟩, ⟨3, none⟩, ⟨4, none⟩, ⟨5, none⟩]

def cxHashes : List HashResult :=
  [⟨1, fpZero⟩, ⟨2, cxHashA⟩, ⟨3, cxHashC⟩, ⟨4, cxHashC⟩, ⟨5, cxHashE⟩]

/-! ## Claim C2: date bucketing vs a single global bucket -/

def farPhotos : List Photo := [⟨1, some 0⟩, ⟨2, some (10 * DAY_MS)⟩]

def farHashes : List HashResult := [⟨1, fpZero⟩, ⟨2, fpZero⟩]

def sameDayPhotos : List Photo := [⟨1, some 0⟩, ⟨2, some 1⟩]

def sameDayHashes : List HashResult := [⟨1, fpZero⟩, ⟨2, fpZero⟩]

/-! ## Claim C5: threshold monotonicity -/

/-- Two nodes lie in the same union-find class. -/
def SameRoot (m : List (Nat × Nat)) (x y : Nat) : Prop :=
  ∃ r, Chases m x r ∧ Chases m y r

/-- The classes of mA refine the classes of mB. -/
def Refines (mA mB : List (Nat × Nat)) : Prop :=
  ∀ x y, SameRoot mA x y → SameRoot mB x y

def gmKeys (gm : List (Nat × List Nat)) : List Nat := gm.map Prod.fst

/-! ## Orchestrator model: analyzePhotos / hashPhotos (claims C3 and C4)

hashPhotos runs a worker pool over the photo queue.  Per item the pool
either receives a worker result message (results.push then completed++),
a worker error message (decode failure: completed++ only), or catches a
read failure thrown by getFileArrayBuffer (completed++ only, the next
item is fed).  The promise resolves with the accumulated results once
completed reaches photos.length, or with [] when the abort listener
fires.  A signal that is already aborted when hashPhotos subscribes
never fires the listener again, and processNext returns without
dispatching anything, so no completion ever arrives and the promise
never settles; Option models this: none means the promise never
resolves, hence analyzePhotos never returns.  The pool is modelled on
its canonical dispatch order; per-item outcomes are data, since they are
determined by the stored image bytes, not by scheduling. -/

/-- Per-item fate, fixed by the item's bytes: the worker posts a result,
the worker posts an error (decode failure), or the byte-buffer read
throws. -/
inductive ItemOutcome where
  | ok (hash : List Nat) (qualityScore blurScore exposureScore : Int)
  | workerError
  | readError
deriving DecidableEq

/-- The orchestrator-side record pushed into results for a successful
item (the source's HashResult interface with its quality fields). -/
structure HashEntry where
  id : Nat
  hash : List Nat
  qualityScore : Int
  blurScore : Int
  exposureScore : Int
deriving DecidableEq

/-- What an item contributes to results: its entry on a result message,
nothing on a worker error or a read failure. -/
def outcomeResult (p : Photo) : ItemOutcome → Option HashEntry
  | .ok h q b e => some ⟨p.id, h, q, b, e⟩
  | .workerError => none
  | .readError => none

/-- The pool's bookkeeping over the whole queue: every item, successful
or failed, increments completed; only result messages are pushed into
results. -/
def processQueue (items : List (Photo × ItemOutcome)) :
    Nat × List HashEntry :=
  items.foldl (fun acc it =>
    match outcomeResult it.1 it.2 with
    | some r => (acc.1 + 1, acc.2 ++ [r])
    | none => (acc.1 + 1, acc.2)) (0, [])

/-- When the abort signal fires relative to the run. -/
inductive AbortTime where
  | never
  | preStart
  | duringHash
  | betweenPhases
  | duringCompare
deriving DecidableEq

/-- signal.aborted at the check right after hashPhotos resolves. -/
def abortedAfterHash : AbortTime → Bool
  | .duringHash => true
  | .betweenPhases => true
  | _ => false

/-- signal.aborted inside the comparison loop and at the check after
compareAndGroup returns. -/
def abortedAfterCompare : AbortTime → Bool
  | .duringHash => true
  | .betweenPhases => true
  | .duringCompare => true
  | _ => false

/-- hashPhotos on its (always nonempty) queue: none models the promise
that never resolves under a pre-aborted signal, some [] the abort
listener's resolve([]), some results a completed run. -/
def hashPhotosModel (items : List (Photo × ItemOutcome)) :
    AbortTime → Option (List HashEntry)
  | .preStart => none
  | .duringHash => some []
  | _ => some (processQueue items).2

/-- analyzePhotos' return value: the group list plus the per-photo
quality map. -/
structure AnalysisResult where
  groups : List SimilarityGroup
  qualityMap : List (Nat × (Int × Int × Int))
deriving DecidableEq

/-- The quality map built from the hash results (JS Map insertion). -/
def qualityMapOf (rs : List HashEntry) : List (Nat × (Int × Int × Int)) :=
  rs.foldl
    (fun m h => mapSet m h.id (h.qualityScore, h.blurScore, h.exposureScore))
    []

/-- The comparison phase's view of an orchestrator hash entry. -/
def entryHash (h : HashEntry) : HashResult := ⟨h.id, h.hash⟩

/-- analyzePhotos: empty input returns immediately; otherwise await
hashPhotos (a never-settling promise propagates: the caller hangs),
check aborted, build the quality map, run compareAndGroup (which bails
out to [] when the signal fires during its loop), check aborted again,
return groups and quality map. -/
def analyzePhotosModel (items : List (Photo × ItemOutcome)) (threshold : ℚ)
    (abort : AbortTime) : Option AnalysisResult :=
  if items.isEmpty then some ⟨[], []⟩ else
    match hashPhotosModel items abort with
    | none => none
    | some hs =>
      if abortedAfterHash abort then some ⟨[], []⟩ else
        let qualityMap := qualityMapOf hs
        let groups := if abortedAfterCompare abort then [] else
          compareAndGroup (hs.map entryHash) (items.map (·.1)) threshold
        if abortedAfterCompare abort then some ⟨[], []⟩ else
          some ⟨groups, qualityMap⟩

/-! ## Theorems -/

theorem popCountAux_eq_of_le {f g n : Nat} (hf : n ≤ f) (hg : n ≤ g) :
    popCountAux f n = popCountAux g n := by
  induction f using Nat.strong_induction_on generalizing g n with
  | _ f ih =>
    match f, g with
    | 0, g => interval_cases n; cases g <;> simp [popCountAux]
    | f + 1, 0 => interval_cases n; simp [popCountAux]
    | f + 1, g + 1 =>
      simp only [popCountAux]
      by_cases h0 : n = 0
      · simp [h0]
      · simp only [h0, if_false]
        have hlt : n / 2 < n := Nat.div_lt_self (Nat.pos_of_ne_zero h0) one_lt_two
        have h1 : n / 2 ≤ f := Nat.le_of_lt_succ (Nat.lt_of_lt_of_le hlt hf)
        have h2 : n / 2 ≤ g := Nat.le_of_lt_succ (Nat.lt_of_lt_of_le hlt hg)
        rw [ih f (Nat.lt_succ_self f) h1 h2]

theorem popCount_succ_unfold (n : Nat) (h : n ≠ 0) :
    popCount n = n % 2 + popCount (n / 2) := by
  have hlt : n / 2 < n := Nat.div_lt_self (Nat.pos_of_ne_zero h) one_lt_two
  match n, h with
  | n + 1, _ =>
    show popCountAux (n + 1) (n + 1) = (n + 1) % 2 + popCount ((n + 1) / 2)
    simp only [popCountAux, Nat.succ_ne_zero, if_false]
    congr 1
    exact popCountAux_eq_of_le (Nat.le_of_lt_succ hlt) le_rfl

theorem popCount_zero : popCount 0 = 0 := rfl

set_option maxRecDepth 4000 in
theorem popCount_le_eight : ∀ n, n < 256 → popCount n ≤ 8 := by decide

theorem hammingDistance_self (a : List Nat) : hammingDistance a a = 0 := by
  unfold hammingDistance
  induction a with
  | nil => rfl
  | cons x xs ih =>
    simp only [List.zip_cons_cons, List.map_cons, List.sum_cons, ih, Nat.add_zero]
    simp [Nat.xor_self, popCount_zero]

theorem hammingDistance_le (a b : List Nat) (ha : a.length = 32)
    (hb : b.length = 32) (ha2 : ∀ x ∈ a, x < 256) (hb2 : ∀ x ∈ b, x < 256) :
    hammingDistance a b ≤ 256 := by
  unfold hammingDistance
  have hlen : ((a.zip b).map (fun p => popCount (p.1 ^^^ p.2))).length = 32 := by
    simp [List.length_zip, ha, hb]
  have hbound : ∀ y ∈ (a.zip b).map (fun p => popCount (p.1 ^^^ p.2)), y ≤ 8 := by
    intro y hy
    rcases List.mem_map.mp hy with ⟨p, hp, rfl⟩
    have h1 : p.1 ∈ a := (List.of_mem_zip hp).1
    have h2 : p.2 ∈ b := (List.of_mem_zip hp).2
    have hx : p.1 ^^^ p.2 < 256 := by
      have h9 : p.1 ^^^ p.2 < 2 ^ 8 := Nat.xor_lt_two_pow
        (by simpa using ha2 _ h1) (by simpa using hb2 _ h2)
      simpa using h9
    exact popCount_le_eight _ hx
  calc ((a.zip b).map (fun p => popCount (p.1 ^^^ p.2))).sum
      ≤ ((a.zip b).map (fun p => popCount (p.1 ^^^ p.2))).length • 8 :=
        List.sum_le_card_nsmul _ 8 hbound
    _ = 256 := by rw [hlen]; norm_num [smul_eq_mul]

/-- Claim C6: for 32-byte fingerprints, similarity is 1 - hamming/256,
the hamming distance is at most 256, similarity lies in [0,1], and
self-similarity is exactly 1. -/
theorem similarity_formula_and_bounds (a b : List Nat)
    (ha : a.length = 32) (hb : b.length = 32)
    (ha2 : ∀ x ∈ a, x < 256) (hb2 : ∀ x ∈ b, x < 256) :
    hammingDistance a b ≤ 256 ∧
    similarity a b = 1 - (hammingDistance a b : ℚ) / 256 ∧
    0 ≤ similarity a b ∧ similarity a b ≤ 1 ∧
    similarity a a = 1 := by
  have hle := hammingDistance_le a b ha hb ha2 hb2
  refine ⟨hle, rfl, ?_, ?_, ?_⟩
  · unfold similarity HASH_BITS
    have h2 : (hammingDistance a b : ℚ) ≤ 256 := by exact_mod_cast hle
    have : (hammingDistance a b : ℚ) / 256 ≤ 1 := by linarith
    linarith
  · unfold similarity HASH_BITS
    have h0 : (0 : ℚ) ≤ (hammingDistance a b : ℚ) := by positivity
    have : (0 : ℚ) ≤ (hammingDistance a b : ℚ) / 256 := by positivity
    linarith
  · unfold similarity
    rw [hammingDistance_self]
    norm_num

theorem similarity_formula_and_bounds_witness :
    hammingDistance fpZero fpOnes ≤ 256 ∧
    similarity fpZero fpOnes = 1 - (hammingDistance fpZero fpOnes : ℚ) / 256 ∧
    0 ≤ similarity fpZero fpOnes ∧ similarity fpZero fpOnes ≤ 1 ∧
    similarity fpZero fpZero = 1 :=
  similarity_formula_and_bounds fpZero fpOnes (by decide) (by decide)
    (by decide) (by decide)

/-! ### Rounding and variance lemmas -/

theorem jround_nonneg {q : ℚ} (h : 0 ≤ q) : 0 ≤ jround q := by
  unfold jround
  exact Int.floor_nonneg.mpr (by linarith)

theorem jround_le_of_le {q : ℚ} {c : ℤ} (h : q ≤ c) : jround q ≤ c := by
  unfold jround
  have hx : q + 1/2 < (c : ℚ) + 1 := by linarith
  exact Int.lt_add_one_iff.mp (Int.floor_lt.mpr (by exact_mod_cast hx))

theorem jroundR_nonneg {x : ℝ} (h : 0 ≤ x) : 0 ≤ jroundR x := by
  unfold jroundR
  exact Int.floor_nonneg.mpr (by linarith)

theorem jroundR_le_of_le {x : ℝ} {c : ℤ} (h : x ≤ c) : jroundR x ≤ c := by
  unfold jroundR
  have hx : x + 1/2 < (c : ℝ) + 1 := by linarith
  exact Int.lt_add_one_iff.mp (Int.floor_lt.mpr (by exact_mod_cast hx))

theorem jround_intCast (n : ℤ) : jround (n : ℚ) = n := by
  unfold jround
  rw [add_comm, Int.floor_add_int]
  norm_num

/-- Cauchy-Schwarz for list sums: (sum)^2 ≤ length * (sum of squares). -/
theorem sq_sum_le_length_mul_sum_sq (l : List ℚ) :
    l.sum ^ 2 ≤ (l.length : ℚ) * (l.map fun t => t * t).sum := by
  induction l with
  | nil => simp
  | cons x xs ih =>
    simp only [List.sum_cons, List.map_cons, List.length_cons]
    push_cast
    rcases eq_or_ne xs [] with rfl | hne
    · simp
      nlinarith [sq_nonneg x]
    · have hn : (1 : ℚ) ≤ (xs.length : ℚ) := by
        have hp : 0 < xs.length := List.length_pos.mpr hne
        exact_mod_cast hp
      nlinarith [ih, sq_nonneg ((xs.length : ℚ) * x - xs.sum), hn,
        sq_nonneg xs.sum, sq_nonneg x]

/-- The empirical variance sumSq/n - mean^2 is nonnegative. -/
theorem list_variance_nonneg (l : List ℚ) (h : l ≠ []) :
    0 ≤ (l.map fun t => t * t).sum / l.length - l.sum / l.length * (l.sum / l.length) := by
  have hn : (0 : ℚ) < (l.length : ℚ) := by
    exact_mod_cast List.length_pos.mpr h
  have hcs := sq_sum_le_length_mul_sum_sq l
  rw [sub_nonneg, div_mul_div_comm, div_le_div_iff (by positivity) hn]
  nlinarith [hcs]

theorem blurVal_range (pixels : List Pixel) (w h : Nat) :
    0 ≤ blurVal pixels w h ∧ blurVal pixels w h ≤ 100 := by
  unfold blurVal computeBlurScore
  by_cases hc : (lapsOf (grayAt pixels) w h).length = 0
  · rw [if_pos hc]
    exact ⟨by norm_num, by norm_num⟩
  · rw [if_neg hc]
    have hne : lapsOf (grayAt pixels) w h ≠ [] := by
      intro hcontra
      exact hc (by simp [hcontra])
    have hv := list_variance_nonneg _ hne
    set l := lapsOf (grayAt pixels) w h
    set v := (l.map fun t => t * t).sum / l.length - l.sum / l.length * (l.sum / l.length)
      with hvdef
    have h1 : (0 : ℚ) ≤ min (v / 800) 1 * 100 := by
      have : (0 : ℚ) ≤ min (v / 800) 1 := le_min (by positivity) (by norm_num)
      positivity
    have h2 : min (v / 800) 1 * 100 ≤ ((100 : ℤ) : ℚ) := by
      have : min (v / 800) 1 ≤ 1 := min_le_right _ _
      push_cast
      nlinarith
    exact ⟨jround_nonneg h1, jround_le_of_le h2⟩

theorem exposureVal_range (pixels : List Pixel) (w h : Nat) :
    0 ≤ exposureVal pixels w h ∧ exposureVal pixels w h ≤ 100 := by
  unfold exposureVal computeExposureScore
  constructor
  · exact le_max_left 0 _
  · exact max_le (by norm_num) (min_le_left _ _)

theorem analyzeWorker_blurScore (pixels : List Pixel) (w h origW origH : Nat) :
    (analyzeWorker pixels w h origW origH).blurScore = blurVal pixels w h :=
  jround_intCast _

theorem analyzeWorker_exposureScore (pixels : List Pixel) (w h origW origH : Nat) :
    (analyzeWorker pixels w h origW origH).exposureScore =
      jroundR (exposureVal pixels w h) := rfl

theorem analyzeWorker_qualityScore (pixels : List Pixel) (w h origW origH : Nat) :
    (analyzeWorker pixels w h origW origH).qualityScore =
      jroundR (0.7 * ((blurVal pixels w h : ℚ) : ℝ) + 0.3 * exposureVal pixels w h) :=
  rfl

/-- Claim C7 (amended): all three reported scores lie in [0,100], and
qualityScore = round(0.7 * blurScore + 0.3 * e) where e is the pre-rounding
exposure score (the reported exposureScore is round(e), and substituting it
into the formula can change the result; see the counterexample). -/
theorem quality_scores_range_and_formula (pixels : List Pixel) (w h origW origH : Nat)
    (hlen : pixels.length = w * h) (hpos : 1 ≤ w * h) :
    (0 ≤ (analyzeWorker pixels w h origW origH).blurScore ∧
      (analyzeWorker pixels w h origW origH).blurScore ≤ 100) ∧
    (0 ≤ (analyzeWorker pixels w h origW origH).exposureScore ∧
      (analyzeWorker pixels w h origW origH).exposureScore ≤ 100) ∧
    (0 ≤ (analyzeWorker pixels w h origW origH).qualityScore ∧
      (analyzeWorker pixels w h origW origH).qualityScore ≤ 100) ∧
    (analyzeWorker pixels w h origW origH).qualityScore =
      jroundR (0.7 * (((analyzeWorker pixels w h origW origH).blurScore : ℚ) : ℝ) +
        0.3 * exposureVal pixels w h) := by
  obtain ⟨hb0, hb1⟩ := blurVal_range pixels w h
  obtain ⟨he0, he1⟩ := exposureVal_range pixels w h
  rw [analyzeWorker_blurScore, analyzeWorker_exposureScore, analyzeWorker_qualityScore]
  have hbr0 : (0 : ℝ) ≤ ((blurVal pixels w h : ℚ) : ℝ) := by exact_mod_cast hb0
  have hbr1 : ((blurVal pixels w h : ℚ) : ℝ) ≤ 100 := by exact_mod_cast hb1
  push_cast at hbr0 hbr1
  refine ⟨⟨hb0, hb1⟩, ⟨jroundR_nonneg he0, jroundR_le_of_le (by exact_mod_cast he1)⟩,
    ⟨?_, ?_⟩, rfl⟩
  · apply jroundR_nonneg
    push_cast
    nlinarith
  · apply jroundR_le_of_le
    push_cast
    nlinarith

theorem quality_scores_range_and_formula_witness :
    blackOne.length = 1 * 1 ∧ 1 ≤ 1 * 1 ∧
    ((0 ≤ (analyzeWorker blackOne 1 1 1 1).blurScore ∧
      (analyzeWorker blackOne 1 1 1 1).blurScore ≤ 100) ∧
    (0 ≤ (analyzeWorker blackOne 1 1 1 1).exposureScore ∧
      (analyzeWorker blackOne 1 1 1 1).exposureScore ≤ 100) ∧
    (0 ≤ (analyzeWorker blackOne 1 1 1 1).qualityScore ∧
      (analyzeWorker blackOne 1 1 1 1).qualityScore ≤ 100) ∧
    (analyzeWorker blackOne 1 1 1 1).qualityScore =
      jroundR (0.7 * (((analyzeWorker blackOne 1 1 1 1).blurScore : ℚ) : ℝ) +
        0.3 * exposureVal blackOne 1 1)) :=
  ⟨by decide, by decide,
    quality_scores_range_and_formula blackOne 1 1 1 1 (by decide) (by decide)⟩

theorem quality_formula_cx_blurVal : blurVal uniformGray 3 3 = 0 := by
  with_unfolding_all decide

set_option maxRecDepth 40000 in
theorem quality_formula_cx_variance :
    exposureVariance (histo uniformGray) (3 * 3) = 0 := by with_unfolding_all decide

set_option maxRecDepth 40000 in
theorem quality_formula_cx_meanPenalty :
    meanPenalty (histo uniformGray) (3 * 3) = 115 / 128 := by with_unfolding_all decide

set_option maxRecDepth 40000 in
theorem quality_formula_cx_clipPenalty :
    clipPenalty (histo uniformGray) (3 * 3) = 1 := by with_unfolding_all decide

theorem quality_formula_cx_exposureVal :
    exposureVal uniformGray 3 3 = (4155 / 64 : ℝ) := by
  unfold exposureVal computeExposureScore spreadScore exposureStd
  rw [quality_formula_cx_variance, quality_formula_cx_meanPenalty,
    quality_formula_cx_clipPenalty]
  push_cast
  rw [max_self, Real.sqrt_zero, zero_div,
    min_eq_left (by norm_num : (0 : ℝ) ≤ 1),
    max_eq_right (by norm_num : (0 : ℝ) ≤ 1)]
  rw [show (0.5 * (115 / 128) + 0.3 * 0 + 0.2 * 1 : ℝ) * 100 = 4155 / 64 by norm_num]
  rw [min_eq_right (by norm_num : (4155 / 64 : ℝ) ≤ 100),
    max_eq_right (by norm_num : (0 : ℝ) ≤ 4155 / 64)]

/-- Claim C7, counterexample: on the uniform 3x3 gray-141 image the worker
reports qualityScore = 19, but round(0.7 * blurScore + 0.3 * exposureScore)
over the reported fields is 20. -/
theorem quality_formula_counterexample :
    (analyzeWorker uniformGray 3 3 3 3).qualityScore = 19 ∧
    (analyzeWorker uniformGray 3 3 3 3).blurScore = 0 ∧
    (analyzeWorker uniformGray 3 3 3 3).exposureScore = 65 ∧
    jroundR (0.7 * (((analyzeWorker uniformGray 3 3 3 3).blurScore : ℚ) : ℝ) +
      0.3 * (((analyzeWorker uniformGray 3 3 3 3).exposureScore : ℚ) : ℝ)) = 20 ∧
    (19 : ℤ) ≠ 20 := by
  have hb := quality_formula_cx_blurVal
  have he := quality_formula_cx_exposureVal
  have hq : (analyzeWorker uniformGray 3 3 3 3).qualityScore = 19 := by
    rw [analyzeWorker_qualityScore, hb, he]
    unfold jroundR
    rw [Int.floor_eq_iff]
    push_cast
    norm_num
  have hbs : (analyzeWorker uniformGray 3 3 3 3).blurScore = 0 := by
    rw [analyzeWorker_blurScore, hb]
  have hes : (analyzeWorker uniformGray 3 3 3 3).exposureScore = 65 := by
    rw [analyzeWorker_exposureScore, he]
    unfold jroundR
    rw [Int.floor_eq_iff]
    push_cast
    norm_num
  refine ⟨hq, hbs, hes, ?_, by norm_num⟩
  rw [hbs, hes]
  unfold jroundR
  rw [Int.floor_eq_iff]
  push_cast
  norm_num

set_option maxRecDepth 200000 in
/-- Claim C8: classifyImage returns document (checked before screenshot,
photo the default) exactly when (whitePct > 0.55 and colors < 150) or
(aspect near 1.414 or 1.294 and whitePct > 0.45 and colors < 250); and the
pure-white 800x1000 image classifies as document. -/
theorem classify_document_rule :
    (∀ (pixels : List Pixel) (w h origW origH : Nat),
      classifyImage pixels w h origW origH (histo pixels) = PhotoType.document ↔
        (whitePct (histo pixels) (w * h) > 0.55 ∧ colorCount pixels < 150) ∨
        (docAR origW origH ∧ whitePct (histo pixels) (w * h) > 0.45 ∧
          colorCount pixels < 250)) ∧
    classifyImage pureWhite 4 5 800 1000 (histo pureWhite) = PhotoType.document := by
  constructor
  · intro pixels w h origW origH
    unfold classifyImage
    by_cases hd : isDocument pixels (w * h) origW origH (histo pixels)
    · rw [if_pos hd]
      exact iff_of_true rfl hd
    · rw [if_neg hd]
      refine iff_of_false ?_ hd
      split
      · decide
      · decide
  · with_unfolding_all decide

/-! ## Claim C9: every emitted group has at least two distinct members -/

theorem photoFind_id (photos : List Photo) (i : Nat) (p : Photo) :
    photoFind photos i = some p → p.id = i := by
  unfold photoFind
  suffices h : ∀ (acc : Option Photo), (∀ q, acc = some q → q.id = i) →
      photos.foldl (fun acc p => if p.id = i then some p else acc) acc = some p →
      p.id = i by
    exact h none (by intro q hq; cases hq)
  induction photos with
  | nil => intro acc hacc hfold; exact hacc p hfold
  | cons x xs ih =>
    intro acc hacc hfold
    refine ih _ ?_ hfold
    intro q hq
    by_cases hx : x.id = i
    · simp only [hx, if_true] at hq
      cases hq
      exact hx
    · simp only [hx, if_false] at hq
      exact hacc q hq

theorem dedupFirst_nodup (l : List Nat) : (dedupFirst l).Nodup := by
  unfold dedupFirst
  suffices h : ∀ (acc : List Nat), acc.Nodup →
      (l.foldl (fun acc x => if x ∈ acc then acc else acc ++ [x]) acc).Nodup by
    exact h [] List.nodup_nil
  induction l with
  | nil => intro acc hacc; exact hacc
  | cons x xs ih =>
    intro acc hacc
    simp only [List.foldl_cons]
    by_cases hx : x ∈ acc
    · simp only [hx, if_true]
      exact ih acc hacc
    · simp only [hx, if_false]
      refine ih _ ?_
      rw [List.nodup_append]
      exact ⟨hacc, List.nodup_singleton x, by simpa using hx⟩

theorem map_id_filterMap_photoFind (photos : List Photo) (l : List Nat) :
    (l.filterMap (photoFind photos)).map Photo.id =
      l.filter fun i => (photoFind photos i).isSome := by
  induction l with
  | nil => rfl
  | cons x xs ih =>
    cases hx : photoFind photos x with
    | none => simp [List.filterMap_cons, List.filter_cons, hx, ih]
    | some p =>
      have hid := photoFind_id photos x p hx
      simp [List.filterMap_cons, List.filter_cons, hx, ih, hid]

theorem mkGroup_spec (photos : List Photo) (threshold : ℚ) (gsim : List (Nat × ℚ))
    (root : Nat) (ms : List Nat) (g : SimilarityGroup)
    (h : mkGroup photos threshold gsim root ms = some g) :
    g.photos = (dedupFirst ms).filterMap (photoFind photos) ∧
    2 ≤ g.photos.length ∧
    g.similarity = (alookup root gsim).getD threshold := by
  unfold mkGroup at h
  by_cases h1 : ms.length < 2
  · rw [if_pos h1] at h
    cases h
  · rw [if_neg h1] at h
    by_cases h2 : ((dedupFirst ms).filterMap (photoFind photos)).length < 2
    · rw [if_pos h2] at h
      cases h
    · rw [if_neg h2] at h
      cases h
      exact ⟨rfl, Nat.le_of_not_lt h2, rfl⟩

theorem mem_sortGroups {g : SimilarityGroup} {l : List SimilarityGroup} :
    g ∈ sortGroups l ↔ g ∈ l :=
  (List.mergeSort_perm l _).mem_iff

theorem mem_compareAndGroupWith (hashes : List HashResult) (photos : List Photo)
    (threshold : ℚ) (buckets : List (List HashResult)) (g : SimilarityGroup)
    (hg : g ∈ compareAndGroupWith hashes photos threshold buckets) :
    ∃ root ms,
      (root, ms) ∈ (collectMembers hashes (runBuckets threshold buckets).uf.parent).1 ∧
      mkGroup photos threshold (runBuckets threshold buckets).uf.gsim root ms = some g := by
  unfold compareAndGroupWith at hg
  rw [mem_sortGroups] at hg
  rcases List.mem_filterMap.mp hg with ⟨rm, hrm, hmk⟩
  exact ⟨rm.1, rm.2, hrm, hmk⟩

/-- Claim C9: for every input and threshold, every emitted group contains
at least 2 photos and its member ids are pairwise distinct (no duplicate
ids, no singleton groups). -/
theorem groups_min_two_distinct (hashes : List HashResult) (photos : List Photo)
    (threshold : ℚ) (g : SimilarityGroup)
    (hg : g ∈ compareAndGroup hashes photos threshold) :
    2 ≤ g.photos.length ∧ (g.photos.map Photo.id).Nodup := by
  rcases mem_compareAndGroupWith _ _ _ _ _ hg with ⟨root, ms, _, hmk⟩
  rcases mkGroup_spec _ _ _ _ _ _ hmk with ⟨hph, hlen, _⟩
  refine ⟨hlen, ?_⟩
  rw [hph, map_id_filterMap_photoFind]
  exact (dedupFirst_nodup ms).filter _

theorem gmFlat_gmPush (gm : List (Nat × List Nat)) (root i : Nat) :
    List.Perm (gmFlat (gmPush gm root i)) (gmFlat gm ++ [i]) := by
  induction gm with
  | nil => simp [gmPush, gmFlat]
  | cons e rest ih =>
    obtain ⟨r, v⟩ := e
    unfold gmPush
    by_cases hr : r = root
    · rw [if_pos hr]
      simp only [gmFlat, List.map_cons, List.flatten_cons]
      have h1 : v ++ [i] ++ (rest.map Prod.snd).flatten =
          v ++ ([i] ++ (rest.map Prod.snd).flatten) := by rw [List.append_assoc]
      have h2 : List.Perm (v ++ ([i] ++ (rest.map Prod.snd).flatten))
          (v ++ ((rest.map Prod.snd).flatten ++ [i])) :=
        (List.perm_append_comm).append_left v
      have h3 : v ++ ((rest.map Prod.snd).flatten ++ [i]) =
          v ++ (rest.map Prod.snd).flatten ++ [i] := by rw [List.append_assoc]
      rw [h1, ← h3]
      exact h2
    · rw [if_neg hr]
      simp only [gmFlat, List.map_cons, List.flatten_cons]
      show List.Perm (v ++ gmFlat (gmPush rest root i)) (v ++ gmFlat rest ++ [i])
      rw [List.append_assoc]
      exact ih.append_left v

theorem gmFlat_collect (hashes : List HashResult) :
    ∀ (gm : List (Nat × List Nat)) (m : List (Nat × Nat)),
      List.Perm
        (gmFlat (hashes.foldl
          (fun st h =>
            let fr := ufFind st.2 h.id
            (gmPush st.1 fr.1 h.id, fr.2)) (gm, m)).1)
        (gmFlat gm ++ hashes.map HashResult.id) := by
  induction hashes with
  | nil => intro gm m; simp
  | cons h hs ih =>
    intro gm m
    simp only [List.foldl_cons, List.map_cons]
    have h1 := ih (gmPush gm (ufFind m h.id).1 h.id) (ufFind m h.id).2
    have h2 : List.Perm (gmFlat (gmPush gm (ufFind m h.id).1 h.id) ++ hs.map HashResult.id)
        ((gmFlat gm ++ [h.id]) ++ hs.map HashResult.id) :=
      (gmFlat_gmPush gm _ h.id).append_right _
    have h3 : (gmFlat gm ++ [h.id]) ++ hs.map HashResult.id =
        gmFlat gm ++ (h.id :: hs.map HashResult.id) := by
      rw [List.append_assoc]; rfl
    exact (h1.trans h2).trans (by rw [h3])

theorem collectMembers_flat (hashes : List HashResult) (m : List (Nat × Nat)) :
    List.Perm (gmFlat (collectMembers hashes m).1) (hashes.map HashResult.id) := by
  have h := gmFlat_collect hashes [] m
  simpa [collectMembers, gmFlat] using h

theorem dedupFirst_subset (l : List Nat) : ∀ x ∈ dedupFirst l, x ∈ l := by
  unfold dedupFirst
  suffices h : ∀ (acc : List Nat), (∀ x ∈ acc, x ∈ acc ∨ x ∈ l) →
      ∀ x ∈ l.foldl (fun acc x => if x ∈ acc then acc else acc ++ [x]) acc,
        x ∈ acc ∨ x ∈ l by
    intro x hx
    rcases h [] (by intro x hx; cases hx) x hx with h1 | h1
    · cases h1
    · exact h1
  suffices hgen : ∀ (l2 : List Nat) (acc : List Nat),
      ∀ x ∈ l2.foldl (fun acc x => if x ∈ acc then acc else acc ++ [x]) acc,
        x ∈ acc ∨ x ∈ l2 by
    intro acc _ x hx
    rcases hgen l acc x hx with h1 | h1
    · exact Or.inl h1
    · exact Or.inr h1
  intro l2
  induction l2 with
  | nil => intro acc x hx; exact Or.inl hx
  | cons y ys ih =>
    intro acc x hx
    simp only [List.foldl_cons] at hx
    by_cases hy : y ∈ acc
    · rw [if_pos hy] at hx
      rcases ih acc x hx with h1 | h1
      · exact Or.inl h1
      · exact Or.inr (List.mem_cons_of_mem y h1)
    · rw [if_neg hy] at hx
      rcases ih (acc ++ [y]) x hx with h1 | h1
      · rcases List.mem_append.mp h1 with h2 | h2
        · exact Or.inl h2
        · simp only [List.mem_singleton] at h2
          exact Or.inr (h2 ▸ List.mem_cons_self y ys)
      · exact Or.inr (List.mem_cons_of_mem y h1)

theorem mkGroup_ids_subset (photos : List Photo) (threshold : ℚ)
    (gsim : List (Nat × ℚ)) (root : Nat) (ms : List Nat) (g : SimilarityGroup)
    (h : mkGroup photos threshold gsim root ms = some g) :
    ∀ i ∈ g.photos.map Photo.id, i ∈ ms := by
  rcases mkGroup_spec _ _ _ _ _ _ h with ⟨hph, _, _⟩
  intro i hi
  rw [hph, map_id_filterMap_photoFind] at hi
  exact dedupFirst_subset ms i (List.mem_of_mem_filter hi)

/-- Claim C10: when the input ids are pairwise distinct, no id appears in
two different emitted groups. -/
theorem groups_pairwise_disjoint (hashes : List HashResult) (photos : List Photo)
    (threshold : ℚ) (hnd : (hashes.map HashResult.id).Nodup) :
    (compareAndGroup hashes photos threshold).Pairwise
      (fun g1 g2 => ∀ i ∈ g1.photos.map Photo.id, i ∉ g2.photos.map Photo.id) := by
  unfold compareAndGroup compareAndGroupWith
  set st := runBuckets threshold ((buildDateBuckets hashes photos).map (·.2))
  set gm := (collectMembers hashes st.uf.parent).1 with hgm
  have hflat : List.Perm (gmFlat gm) (hashes.map HashResult.id) :=
    collectMembers_flat hashes _
  have hnodup : (gmFlat gm).Nodup := hflat.nodup_iff.mpr hnd
  have hdisj : gm.Pairwise (fun e1 e2 => e1.2.Disjoint e2.2) := by
    have h1 := (List.nodup_flatten.mp hnodup).2
    exact List.pairwise_map.mp h1
  have hpw : (gm.filterMap fun rm =>
      mkGroup photos threshold st.uf.gsim rm.1 rm.2).Pairwise
      (fun g1 g2 => ∀ i ∈ g1.photos.map Photo.id, i ∉ g2.photos.map Photo.id) := by
    refine hdisj.filterMap _ ?_
    intro e1 e2 hR g1 hg1 g2 hg2 i hi1 hi2
    have hs1 := mkGroup_ids_subset _ _ _ _ _ _ hg1 i hi1
    have hs2 := mkGroup_ids_subset _ _ _ _ _ _ hg2 i hi2
    exact hR hs1 hs2
  have hsymm : ∀ {g1 g2 : SimilarityGroup},
      (∀ i ∈ g1.photos.map Photo.id, i ∉ g2.photos.map Photo.id) →
      (∀ i ∈ g2.photos.map Photo.id, i ∉ g1.photos.map Photo.id) := by
    intro g1 g2 h i hi2 hi1
    exact h i hi1 hi2
  exact ((List.mergeSort_perm _ _).pairwise_iff hsymm).mpr hpw

theorem groups_min_two_distinct_witness :
    (⟨[⟨1, none⟩, ⟨2, none⟩], 1⟩ : SimilarityGroup) ∈
      compareAndGroup fourHashes fourPhotos (9/10) ∧
    (2 ≤ (⟨[⟨1, none⟩, ⟨2, none⟩], (1 : ℚ)⟩ : SimilarityGroup).photos.length ∧
      ((⟨[⟨1, none⟩, ⟨2, none⟩], (1 : ℚ)⟩ : SimilarityGroup).photos.map Photo.id).Nodup) :=
  have hmem : (⟨[⟨1, none⟩, ⟨2, none⟩], (1 : ℚ)⟩ : SimilarityGroup) ∈
      compareAndGroup fourHashes fourPhotos (9/10) := by with_unfolding_all decide
  ⟨hmem, groups_min_two_distinct fourHashes fourPhotos (9/10) _ hmem⟩

theorem groups_pairwise_disjoint_witness :
    (compareAndGroup fourHashes fourPhotos (9/10)).Pairwise
      (fun g1 g2 => ∀ i ∈ g1.photos.map Photo.id, i ∉ g2.photos.map Photo.id) :=
  groups_pairwise_disjoint fourHashes fourPhotos (9/10) (by decide)

theorem alookup_mapSet_self (m : List (Nat × α)) (k : Nat) (v : α) :
    alookup k (mapSet m k v) = some v := by
  induction m with
  | nil => simp [mapSet, alookup]
  | cons e rest ih =>
    obtain ⟨k2, v2⟩ := e
    unfold mapSet
    by_cases h : k2 = k
    · rw [if_pos h]
      simp [alookup]
    · rw [if_neg h]
      unfold alookup
      rw [if_neg (fun hc => h hc.symm)]
      exact ih

theorem alookup_mapSet_ne (m : List (Nat × α)) (k k2 : Nat) (v : α) (h : k2 ≠ k) :
    alookup k2 (mapSet m k v) = alookup k2 m := by
  induction m with
  | nil => simp [mapSet, alookup, h]
  | cons e rest ih =>
    obtain ⟨k3, v3⟩ := e
    unfold mapSet
    by_cases h3 : k3 = k
    · rw [if_pos h3]
      unfold alookup
      rw [if_neg h, if_neg (h3 ▸ h)]
    · rw [if_neg h3]
      unfold alookup
      by_cases h4 : k2 = k3
      · rw [if_pos h4, if_pos h4]
      · rw [if_neg h4, if_neg h4]
        exact ih

theorem mem_keysOf_iff {m : List (Nat × α)} {k : Nat} :
    k ∈ keysOf m ↔ (alookup k m).isSome := by
  induction m with
  | nil => simp [keysOf, alookup]
  | cons e rest ih =>
    obtain ⟨k2, v2⟩ := e
    unfold alookup
    by_cases h : k = k2
    · simp [keysOf, h]
    · simp only [keysOf, List.map_cons, List.mem_cons, if_neg h]
      constructor
      · intro hc
        rcases hc with hc | hc
        · exact absurd hc h
        · exact ih.mp hc
      · intro hc
        exact Or.inr (ih.mpr hc)

theorem keysOf_mapSet_of_mem (m : List (Nat × α)) (k : Nat) (v : α)
    (h : k ∈ keysOf m) : keysOf (mapSet m k v) = keysOf m := by
  induction m with
  | nil => simp [keysOf] at h
  | cons e rest ih =>
    obtain ⟨k2, v2⟩ := e
    unfold mapSet
    by_cases h2 : k2 = k
    · rw [if_pos h2]
      simp [keysOf, h2]
    · rw [if_neg h2]
      have hmem : k ∈ keysOf rest := by
        rcases List.mem_cons.mp h with hc | hc
        · exact absurd hc.symm h2
        · exact hc
      show k2 :: keysOf (mapSet rest k v) = k2 :: keysOf rest
      rw [ih hmem]

theorem keysOf_mapSet_of_not_mem (m : List (Nat × α)) (k : Nat) (v : α)
    (h : k ∉ keysOf m) : keysOf (mapSet m k v) = keysOf m ++ [k] := by
  induction m with
  | nil => simp [mapSet, keysOf]
  | cons e rest ih =>
    obtain ⟨k2, v2⟩ := e
    unfold mapSet
    by_cases h2 : k2 = k
    · exact absurd (h2 ▸ List.mem_cons_self k2 _ : k ∈ keysOf ((k2, v2) :: rest))
        ((by simpa [keysOf, h2] using h))
    · rw [if_neg h2]
      have hr : k ∉ keysOf rest := fun hc => h (List.mem_cons_of_mem _ hc)
      show k2 :: keysOf (mapSet rest k v) = k2 :: keysOf rest ++ [k]
      rw [ih hr, List.cons_append]

theorem keysOf_mapSet_nodup (m : List (Nat × α)) (k : Nat) (v : α)
    (h : (keysOf m).Nodup) : (keysOf (mapSet m k v)).Nodup := by
  by_cases hk : k ∈ keysOf m
  · rw [keysOf_mapSet_of_mem m k v hk]
    exact h
  · rw [keysOf_mapSet_of_not_mem m k v hk]
    rw [List.nodup_append]
    exact ⟨h, List.nodup_singleton k, by simpa using hk⟩

theorem chasesN_det {m : List (Nat × Nat)} :
    ∀ {n1 n2 x r1 r2}, ChasesN m n1 x r1 → ChasesN m n2 x r2 →
      n1 = n2 ∧ r1 = r2 := by
  intro n1
  induction n1 using Nat.strong_induction_on with
  | _ n1 ih =>
    intro n2 x r1 r2 h1 h2
    cases h1 with
    | root _ hr =>
      cases h2 with
      | root _ _ => exact ⟨rfl, rfl⟩
      | step _ p _ n h hne ht =>
        rcases hr with hr | hr
        · rw [h] at hr; cases hr
        · rw [h] at hr
          cases hr
          exact absurd rfl hne
    | step _ p _ n h hne ht =>
      cases h2 with
      | root _ hr =>
        rcases hr with hr | hr
        · rw [h] at hr; cases hr
        · rw [h] at hr
          cases hr
          exact absurd rfl hne
      | step _ p2 _ n4 h4 hne4 ht4 =>
        rw [h] at h4
        cases h4
        obtain ⟨hn, hr⟩ := ih n (Nat.lt_succ_self n) ht ht4
        exact ⟨by omega, hr⟩

theorem chases_det {m : List (Nat × Nat)} {x r1 r2 : Nat}
    (h1 : Chases m x r1) (h2 : Chases m x r2) : r1 = r2 := by
  obtain ⟨n1, h1⟩ := h1
  obtain ⟨n2, h2⟩ := h2
  exact (chasesN_det h1 h2).2

theorem chasesN_root {m : List (Nat × Nat)} {n x r : Nat}
    (h : ChasesN m n x r) : IsRoot m r := by
  induction h with
  | root _ hr => exact hr
  | step _ _ _ _ _ _ _ ih => exact ih

theorem chases_root {m : List (Nat × Nat)} {x r : Nat}
    (h : Chases m x r) : IsRoot m r := by
  obtain ⟨n, h⟩ := h
  exact chasesN_root h

theorem chases_of_isRoot {m : List (Nat × Nat)} {r : Nat} (h : IsRoot m r) :
    Chases m r r := ⟨0, ChasesN.root r h⟩

theorem chases_ne_root {m : List (Nat × Nat)} {x p r : Nat}
    (h : alookup x m = some p) (hne : p ≠ x) (hc : Chases m x r) : x ≠ r := by
  intro hxr
  subst hxr
  rcases chases_root hc with hr | hr
  · rw [h] at hr; cases hr
  · rw [h] at hr
    cases hr
    exact hne rfl

theorem chasesN_nodes {m : List (Nat × Nat)} :
    ∀ {n x r}, ChasesN m n x r →
      ∃ ns : List Nat, ns.length = n ∧ ns.Nodup ∧ (∀ y ∈ ns, y ∈ keysOf m) ∧
        ∀ y ∈ ns, ∃ k, 1 ≤ k ∧ k ≤ n ∧ ChasesN m k y r := by
  intro n x r h
  induction h with
  | root => exact ⟨[], rfl, List.nodup_nil, by simp, by simp⟩
  | step x p r k hlook hne ht ih =>
    obtain ⟨ns, hlen, hnd, hkeys, hbound⟩ := ih
    refine ⟨x :: ns, by simp [hlen], ?_, ?_, ?_⟩
    · rw [List.nodup_cons]
      refine ⟨?_, hnd⟩
      intro hx
      obtain ⟨j, hj1, hj2, hjc⟩ := hbound x hx
      have hd := chasesN_det hjc (ChasesN.step x p r k hlook hne ht)
      omega
    · intro y hy
      rcases List.mem_cons.mp hy with rfl | hy
      · exact mem_keysOf_iff.mpr (by rw [hlook]; rfl)
      · exact hkeys y hy
    · intro y hy
      rcases List.mem_cons.mp hy with rfl | hy
      · exact ⟨k + 1, by omega, le_rfl, ChasesN.step y p r k hlook hne ht⟩
      · obtain ⟨j, hj1, hj2, hjc⟩ := hbound y hy
        exact ⟨j, hj1, by omega, hjc⟩

theorem chasesN_le_length {m : List (Nat × Nat)} {n x r : Nat}
    (h : ChasesN m n x r) : n ≤ m.length := by
  obtain ⟨ns, hlen, hnd, hkeys, _⟩ := chasesN_nodes h
  have h1 : ns.toFinset.card = ns.length := List.toFinset_card_of_nodup hnd
  have h2 : ns.toFinset ⊆ (keysOf m).toFinset := by
    intro y hy
    rw [List.mem_toFinset] at hy ⊢
    exact hkeys y hy
  have h3 := Finset.card_le_card h2
  have h4 := (keysOf m).toFinset_card_le
  have h5 : (keysOf m).length = m.length := by simp [keysOf]
  omega

/-- The final edge of a nontrivial chain: some node other than r points
at r in the map. -/
theorem chases_last_edge {m : List (Nat × Nat)} {x r : Nat}
    (h : Chases m x r) (hne : x ≠ r) :
    ∃ y, y ≠ r ∧ alookup y m = some r := by
  obtain ⟨n, h⟩ := h
  induction h with
  | root y _ => exact absurd rfl hne
  | step y p r k hlook hpy ht ih =>
    by_cases hpr : p = r
    · subst hpr
      exact ⟨y, hne, hlook⟩
    · exact ih hpr

/-- Inserting a self-loop for an absent key does not change any chain. -/
theorem chases_selfloop {m : List (Nat × Nat)} {x : Nat}
    (hx : alookup x m = none) :
    ∀ {y s}, Chases (mapSet m x x) y s ↔ Chases m y s := by
  intro y s
  constructor
  · rintro ⟨n, h⟩
    induction h with
    | root z hz =>
      by_cases hzx : z = x
      · subst hzx
        exact ⟨0, ChasesN.root z (Or.inl hx)⟩
      · rw [IsRoot, alookup_mapSet_ne m x z x hzx] at hz
        exact ⟨0, ChasesN.root z hz⟩
    | step z p r k hlook hne ht ih =>
      by_cases hzx : z = x
      · subst hzx
        rw [alookup_mapSet_self] at hlook
        cases hlook
        exact absurd rfl hne
      · rw [alookup_mapSet_ne m x z x hzx] at hlook
        obtain ⟨k2, hk2⟩ := ih
        exact ⟨k2 + 1, ChasesN.step z p r k2 hlook hne hk2⟩
  · rintro ⟨n, h⟩
    induction h with
    | root z hz =>
      by_cases hzx : z = x
      · subst hzx
        exact ⟨0, ChasesN.root z (Or.inr (alookup_mapSet_self m z z))⟩
      · refine ⟨0, ChasesN.root z ?_⟩
        rw [IsRoot, alookup_mapSet_ne m x z x hzx]
        exact hz
    | step z p r k hlook hne ht ih =>
      by_cases hzx : z = x
      · subst hzx
        rw [hx] at hlook
        cases hlook
      · obtain ⟨k2, hk2⟩ := ih
        refine ⟨k2 + 1, ChasesN.step z p r k2 ?_ hne hk2⟩
        rw [alookup_mapSet_ne m x z x hzx]
        exact hlook

/-- Path compression: pointing x directly at its root r does not change
any chain root. -/
theorem chases_compress {m : List (Nat × Nat)} {x r : Nat}
    (hc : Chases m x r) (hxr : x ≠ r) :
    ∀ {y s}, Chases (mapSet m x r) y s ↔ Chases m y s := by
  have hroot : IsRoot m r := chases_root hc
  intro y s
  constructor
  · rintro ⟨n, h⟩
    induction h with
    | root z hz =>
      by_cases hzx : z = x
      · subst hzx
        rw [IsRoot, alookup_mapSet_self] at hz
        rcases hz with hz | hz
        · cases hz
        · cases hz
          exact absurd rfl hxr
      · rw [IsRoot, alookup_mapSet_ne m x z r hzx] at hz
        exact ⟨0, ChasesN.root z hz⟩
    | step z p s2 k hlook hne ht ih =>
      by_cases hzx : z = x
      · subst hzx
        rw [alookup_mapSet_self] at hlook
        have hpr : p = r := (Option.some.inj hlook).symm
        have hs2 : Chases m p s2 := ih
        rw [hpr] at hs2
        have heq : s2 = r := chases_det hs2 (chases_of_isRoot hroot)
        rw [heq]
        exact hc
      · rw [alookup_mapSet_ne m x z r hzx] at hlook
        obtain ⟨k2, hk2⟩ := ih
        exact ⟨k2 + 1, ChasesN.step z p s2 k2 hlook hne hk2⟩
  · rintro ⟨n, h⟩
    induction h with
    | root z hz =>
      by_cases hzx : z = x
      · subst hzx
        have : Chases m z z := chases_of_isRoot hz
        exact absurd (chases_det hc this).symm hxr
      · refine ⟨0, ChasesN.root z ?_⟩
        rw [IsRoot, alookup_mapSet_ne m x z r hzx]
        exact hz
    | step z p s2 k hlook hne ht ih =>
      by_cases hzx : z = x
      · have hs2 : Chases m z s2 := ⟨k + 1, ChasesN.step z p s2 k hlook hne ht⟩
        rw [hzx] at hs2 ⊢
        have hr2 : s2 = r := chases_det hs2 hc
        rw [hr2]
        refine ⟨0 + 1, ChasesN.step x r r 0 (alookup_mapSet_self m x r) ?_ ?_⟩
        · exact fun hcon => hxr hcon.symm
        · refine ChasesN.root r ?_
          rw [IsRoot, alookup_mapSet_ne m x r r (fun hcon => hxr hcon.symm)]
          exact hroot
      · obtain ⟨k2, hk2⟩ := ih
        refine ⟨k2 + 1, ChasesN.step z p s2 k2 ?_ hne hk2⟩
        rw [alookup_mapSet_ne m x z r hzx]
        exact hlook

theorem findAux_spec {m : List (Nat × Nat)} :
    ∀ {n x r fuel}, ChasesN m n x r → n < fuel →
      (findAux fuel m x).1 = r ∧
      (∀ y s, Chases (findAux fuel m x).2 y s ↔ Chases m y s) ∧
      (∀ y q, alookup y (findAux fuel m x).2 = some q → q ≠ y →
        alookup y m = some q ∨ (q = r ∧ ∃ y0, y0 ≠ r ∧ alookup y0 m = some r)) := by
  intro n
  induction n using Nat.strong_induction_on with
  | _ n ih =>
    intro x r fuel hc hfuel
    match fuel, hfuel with
    | fuel + 1, _ =>
      cases hc with
      | root _ hroot =>
        rcases hroot with hnone | hself
        · have hstep : findAux (fuel + 1) m x = (x, mapSet m x x) := by
            simp only [findAux, hnone]
          rw [hstep]
          refine ⟨rfl, ?_, ?_⟩
          · intro y s
            exact chases_selfloop hnone
          · intro y q hlk hne
            by_cases hyx : y = x
            · rw [hyx, alookup_mapSet_self] at hlk
              exact absurd (Option.some.inj hlk).symm (hyx ▸ hne)
            · rw [alookup_mapSet_ne m x y x hyx] at hlk
              exact Or.inl hlk
        · have hstep : findAux (fuel + 1) m x = (x, m) := by
            simp [findAux, hself]
          rw [hstep]
          exact ⟨rfl, fun y s => Iff.rfl, fun y q hlk hne => Or.inl hlk⟩
      | step _ p _ k hlook hpx hsub =>
        have hxr : x ≠ r :=
          chases_ne_root hlook hpx ⟨k + 1, ChasesN.step x p r k hlook hpx hsub⟩
        obtain ⟨h1, h2, h3⟩ := ih k (Nat.lt_succ_self k) hsub
          (show k < fuel by omega)
        have hcm : Chases (findAux fuel m p).2 x r :=
          (h2 x r).mpr ⟨k + 1, ChasesN.step x p r k hlook hpx hsub⟩
        have hedge : ∃ y0, y0 ≠ r ∧ alookup y0 m = some r :=
          chases_last_edge ⟨k + 1, ChasesN.step x p r k hlook hpx hsub⟩ hxr
        have hstep : findAux (fuel + 1) m x =
            ((findAux fuel m p).1, mapSet (findAux fuel m p).2 x (findAux fuel m p).1) := by
          simp only [findAux, hlook]
          rw [if_neg hpx]
        rw [hstep]
        refine ⟨h1, ?_, ?_⟩
        · intro y s
          rw [h1]
          exact Iff.trans (chases_compress hcm hxr) (h2 y s)
        · intro y q hlk hne
          rw [h1] at hlk
          by_cases hyx : y = x
          · rw [hyx, alookup_mapSet_self] at hlk
            have hq : q = r := (Option.some.inj hlk).symm
            exact Or.inr ⟨hq, hedge⟩
          · rw [alookup_mapSet_ne _ x y r hyx] at hlk
            exact h3 y q hlk hne

theorem ufFind_spec {m : List (Nat × Nat)} (hw : WFp m) (x : Nat) :
    Chases m x (ufFind m x).1 ∧
    (∀ y s, Chases (ufFind m x).2 y s ↔ Chases m y s) ∧
    WFp (ufFind m x).2 ∧
    (∀ y q, alookup y (ufFind m x).2 = some q → q ≠ y →
      alookup y m = some q ∨ ∃ y0, y0 ≠ q ∧ alookup y0 m = some q) := by
  obtain ⟨r, n, hc⟩ := hw x
  have hb : n ≤ m.length := chasesN_le_length hc
  obtain ⟨h1, h2, h3⟩ := @findAux_spec m n x r (m.length + 1) hc (by omega)
  refine ⟨?_, h2, ?_, ?_⟩
  · show Chases m x (findAux (m.length + 1) m x).1
    rw [h1]
    exact ⟨n, hc⟩
  · intro y
    obtain ⟨s, hs⟩ := hw y
    exact ⟨s, (h2 y s).mpr hs⟩
  · intro y q hlk hne
    rcases h3 y q hlk hne with h | ⟨hq, y0, hy0, hlk0⟩
    · exact Or.inl h
    · exact Or.inr ⟨y0, hq ▸ hy0, hq ▸ hlk0⟩

/-- After linking rb under ra, every node that chased to rb chases to ra. -/
theorem chases_link_to_rb {m : List (Nat × Nat)} {ra rb : Nat}
    (hra : IsRoot m ra) (hrb : IsRoot m rb) (hne : ra ≠ rb) :
    ∀ {n y w}, ChasesN m n y w → w = rb → Chases (mapSet m rb ra) y ra := by
  intro n y w h
  induction h with
  | root z hz =>
    intro hzrb
    refine ⟨0 + 1, ChasesN.step z ra ra 0 ?_ ?_ ?_⟩
    · rw [hzrb]
      exact alookup_mapSet_self m rb ra
    · intro hcon
      rw [hzrb] at hcon
      exact hne hcon
    · refine ChasesN.root ra ?_
      rw [IsRoot, alookup_mapSet_ne m rb ra ra (fun hcon => hne hcon)]
      exact hra
  | step z p w k hlook hne2 ht ih =>
    intro hwrb
    have hzb : z ≠ rb := by
      intro hzb
      rw [hzb] at hlook
      rcases hrb with hr | hr
      · rw [hlook] at hr; cases hr
      · rw [hlook] at hr
        exact hne2 ((Option.some.inj hr).trans hzb.symm)
    obtain ⟨k2, hk2⟩ := ih hwrb
    refine ⟨k2 + 1, ChasesN.step z p ra k2 ?_ hne2 hk2⟩
    rw [alookup_mapSet_ne m rb z ra hzb]
    exact hlook

/-- Linking two distinct roots: every node whose root was rb now has root
ra; all other roots are unchanged. -/
theorem chases_link {m : List (Nat × Nat)} {ra rb : Nat}
    (hra : IsRoot m ra) (hrb : IsRoot m rb) (hne : ra ≠ rb) :
    ∀ {y s}, Chases (mapSet m rb ra) y s ↔
      ((Chases m y s ∧ s ≠ rb) ∨ (Chases m y rb ∧ s = ra)) := by
  intro y s
  constructor
  · rintro ⟨n, h⟩
    induction h with
    | root z hz =>
      by_cases hzb : z = rb
      · rw [hzb, IsRoot, alookup_mapSet_self] at hz
        rcases hz with hz | hz
        · cases hz
        · exact absurd (Option.some.inj hz) (hzb ▸ hne)
      · rw [IsRoot, alookup_mapSet_ne m rb z ra hzb] at hz
        exact Or.inl ⟨chases_of_isRoot hz, hzb⟩
    | step z p s2 k hlook hne2 ht ih =>
      by_cases hzb : z = rb
      · rw [hzb, alookup_mapSet_self] at hlook
        have hpra : p = ra := (Option.some.inj hlook).symm
        rcases ih with ⟨hps, hs2⟩ | ⟨hprb, hs2⟩
        · rw [hpra] at hps
          have : s2 = ra := chases_det hps (chases_of_isRoot hra)
          rw [hzb, this]
          exact Or.inr ⟨chases_of_isRoot hrb, rfl⟩
        · rw [hpra] at hprb
          have : rb = ra := chases_det hprb (chases_of_isRoot hra)
          exact absurd this.symm hne
      · rw [alookup_mapSet_ne m rb z ra hzb] at hlook
        rcases ih with ⟨hps, hs2⟩ | ⟨hprb, hs2⟩
        · obtain ⟨k2, hk2⟩ := hps
          exact Or.inl ⟨⟨k2 + 1, ChasesN.step z p s2 k2 hlook hne2 hk2⟩, hs2⟩
        · obtain ⟨k2, hk2⟩ := hprb
          exact Or.inr ⟨⟨k2 + 1, ChasesN.step z p rb k2 hlook hne2 hk2⟩, hs2⟩
  · rintro (⟨⟨n, h⟩, hs⟩ | ⟨⟨n, h⟩, hs⟩)
    · induction h with
      | root z hz =>
        refine ⟨0, ChasesN.root z ?_⟩
        have hzb : z ≠ rb := hs
        rw [IsRoot, alookup_mapSet_ne m rb z ra hzb]
        exact hz
      | step z p s2 k hlook hne2 ht ih =>
        have hzb : z ≠ rb := by
          intro hzb
          rw [hzb] at hlook
          rcases hrb with hr | hr
          · rw [hlook] at hr; cases hr
          · rw [hlook] at hr
            exact hne2 ((Option.some.inj hr).trans hzb.symm)
        obtain ⟨k2, hk2⟩ := ih hs
        refine ⟨k2 + 1, ChasesN.step z p s2 k2 ?_ hne2 hk2⟩
        rw [alookup_mapSet_ne m rb z ra hzb]
        exact hlook
    · rw [hs]
      exact chases_link_to_rb hra hrb hne h rfl

theorem isSome_mapSet {m : List (Nat × α)} {k q : Nat} {v : α}
    (h : (alookup q m).isSome) : (alookup q (mapSet m k v)).isSome := by
  by_cases hq : q = k
  · rw [hq, alookup_mapSet_self]; rfl
  · rw [alookup_mapSet_ne m k q v hq]; exact h

theorem einv_find {m : List (Nat × Nat)} {gs : List (Nat × ℚ)} (hw : WFp m)
    (he : EInv m gs) (x : Nat) : EInv (ufFind m x).2 gs := by
  intro y p hlk hne
  rcases (ufFind_spec hw x).2.2.2 y p hlk hne with h | ⟨y0, hy0, hlk0⟩
  · exact he y p h hne
  · exact he y0 p hlk0 (fun hc => hy0 hc.symm)

theorem ufUnion_spec (st : UFState) (a b : Nat) (sim : ℚ) (hw : WFp st.parent) :
    ∃ ra rb, Chases st.parent a ra ∧ Chases st.parent b rb ∧
      WFp (ufUnion st a b sim).parent ∧
      (EInv st.parent st.gsim →
        EInv (ufUnion st a b sim).parent (ufUnion st a b sim).gsim) ∧
      ((ra = rb ∧
          (ufUnion st a b sim).gsim = st.gsim ∧
          (ufUnion st a b sim).events = st.events ∧
          (∀ y s, Chases (ufUnion st a b sim).parent y s ↔ Chases st.parent y s)) ∨
       (ra ≠ rb ∧
          (ufUnion st a b sim).gsim =
            mapSet st.gsim ra (min (gsimGet st.gsim ra) sim) ∧
          (ufUnion st a b sim).events = st.events ++ [⟨a, b, ra, rb, sim⟩] ∧
          (∀ y s, Chases (ufUnion st a b sim).parent y s ↔
            ((Chases st.parent y s ∧ s ≠ rb) ∨ (Chases st.parent y rb ∧ s = ra))))) := by
  obtain ⟨hca, hiff1, hw1, hedge1⟩ := ufFind_spec hw a
  obtain ⟨hcb1, hiff2, hw2, hedge2⟩ := ufFind_spec hw1 b
  set fa := ufFind st.parent a with hfa
  set fb := ufFind fa.2 b with hfb
  have hcb : Chases st.parent b fb.1 := (hiff1 b fb.1).mp hcb1
  refine ⟨fa.1, fb.1, hca, hcb, ?_⟩
  by_cases hr : fa.1 = fb.1
  · have hdef : ufUnion st a b sim = { st with parent := fb.2 } := by
      simp only [ufUnion]
      rw [if_pos hr]
    rw [hdef]
    refine ⟨?_, ?_, Or.inl ⟨hr, rfl, rfl, ?_⟩⟩
    · exact hw2
    · intro he
      exact einv_find hw1 (einv_find hw he a) b
    · intro y s
      exact (hiff2 y s).trans (hiff1 y s)
  · have hdef : ufUnion st a b sim =
        { parent := mapSet fb.2 fb.1 fa.1
          gsim := mapSet st.gsim fa.1 (min (gsimGet st.gsim fa.1) sim)
          events := st.events ++ [⟨a, b, fa.1, fb.1, sim⟩] } := by
      simp only [ufUnion]
      rw [if_neg hr]
    have hra2 : Chases fb.2 a fa.1 := (hiff2 a fa.1).mpr ((hiff1 a fa.1).mpr hca)
    have hrb2 : Chases fb.2 b fb.1 := (hiff2 b fb.1).mpr hcb1
    have hroota : IsRoot fb.2 fa.1 := chases_root hra2
    have hrootb : IsRoot fb.2 fb.1 := chases_root hrb2
    have hiffs : ∀ y s, Chases (mapSet fb.2 fb.1 fa.1) y s ↔
        ((Chases st.parent y s ∧ s ≠ fb.1) ∨ (Chases st.parent y fb.1 ∧ s = fa.1)) := by
      intro y s
      refine (chases_link hroota hrootb hr).trans ?_
      constructor
      · rintro (⟨hc, hs⟩ | ⟨hc, hs⟩)
        · exact Or.inl ⟨(hiff1 y s).mp ((hiff2 y s).mp hc), hs⟩
        · exact Or.inr ⟨(hiff1 y fb.1).mp ((hiff2 y fb.1).mp hc), hs⟩
      · rintro (⟨hc, hs⟩ | ⟨hc, hs⟩)
        · exact Or.inl ⟨(hiff2 y s).mpr ((hiff1 y s).mpr hc), hs⟩
        · exact Or.inr ⟨(hiff2 y fb.1).mpr ((hiff1 y fb.1).mpr hc), hs⟩
    rw [hdef]
    refine ⟨?_, ?_, Or.inr ⟨hr, rfl, rfl, hiffs⟩⟩
    · intro y
      obtain ⟨s, hs⟩ := hw y
      by_cases hsb : s = fb.1
      · refine ⟨fa.1, (hiffs y fa.1).mpr (Or.inr ⟨hsb ▸ hs, rfl⟩)⟩
      · exact ⟨s, (hiffs y s).mpr (Or.inl ⟨hs, hsb⟩)⟩
    · intro he
      have he2 : EInv fb.2 st.gsim := einv_find hw1 (einv_find hw he a) b
      intro y p hlk hne
      by_cases hyb : y = fb.1
      · rw [hyb, alookup_mapSet_self] at hlk
        have hp : p = fa.1 := (Option.some.inj hlk).symm
        rw [hp, alookup_mapSet_self]
        rfl
      · rw [alookup_mapSet_ne fb.2 fb.1 y fa.1 hyb] at hlk
        exact isSome_mapSet (he2 y p hlk hne)

theorem stInv_empty : StInv emptyCmp := by
  refine ⟨?_, ?_, ?_⟩
  · intro x
    exact ⟨x, 0, ChasesN.root x (Or.inl rfl)⟩
  · intro y p hlk
    cases hlk
  · intro r
    rfl

theorem ginv_union (st : UFState) (a b : Nat) (sim : ℚ) (ra rb : Nat)
    (hne : ra ≠ rb)
    (hgs : (ufUnion st a b sim).gsim = mapSet st.gsim ra (min (gsimGet st.gsim ra) sim))
    (hev : (ufUnion st a b sim).events = st.events ++ [⟨a, b, ra, rb, sim⟩])
    (hg : GInv st) : GInv (ufUnion st a b sim) := by
  intro r
  rw [hgs, hev, List.filter_append]
  by_cases hr : r = ra
  · subst hr
    rw [alookup_mapSet_self]
    have hfilter : List.filter (fun e => decide (e.rootA = r))
        [(⟨a, b, r, rb, sim⟩ : UEvent)] = [⟨a, b, r, rb, sim⟩] := by
      simp [List.filter]
    rw [hfilter]
    have hbase := hg r
    by_cases hemp : (st.events.filter (fun e => e.rootA = r)).isEmpty
    · rw [hemp] at hbase
      simp only [if_pos] at hbase
      rw [List.isEmpty_iff] at hemp
      rw [hemp]
      unfold gsimGet
      rw [hbase]
      simp [minEv]
    · rw [if_neg (by simpa using hemp)] at hbase
      have hemp2 : ((st.events.filter (fun e => e.rootA = r)) ++
          [(⟨a, b, r, rb, sim⟩ : UEvent)]).isEmpty = false := by
        simp
      rw [hemp2]
      unfold gsimGet
      rw [hbase]
      simp only [Option.getD_some, List.map_append, List.map]
      unfold minEv
      rw [List.foldl_append]
      rfl
  · rw [alookup_mapSet_ne st.gsim ra r _ hr]
    have hra : ¬(ra = r) := fun hc => hr hc.symm
    have hfilter : List.filter (fun e => decide (e.rootA = r))
        [(⟨a, b, ra, rb, sim⟩ : UEvent)] = [] := by
      simp [List.filter, hra]
    rw [hfilter, List.append_nil]
    exact hg r

theorem stInv_step (T : ℚ) (st : CmpState) (pr : HashResult × HashResult)
    (h : StInv st) : StInv (cmpStep T st pr) := by
  obtain ⟨hw, he, hg⟩ := h
  unfold cmpStep
  by_cases h1 : pr.1.id = pr.2.id
  · rw [if_pos h1]
    exact ⟨hw, he, hg⟩
  · rw [if_neg h1]
    by_cases h2 : pairKey pr.1.id pr.2.id ∈ st.compared
    · rw [if_pos h2]
      exact ⟨hw, he, hg⟩
    · rw [if_neg h2]
      by_cases h3 : T ≤ similarity pr.1.hash pr.2.hash
      · rw [if_pos h3]
        obtain ⟨ra, rb, hca, hcb, hw2, he2, hbr⟩ :=
          ufUnion_spec st.uf pr.1.id pr.2.id (similarity pr.1.hash pr.2.hash) hw
        refine ⟨hw2, he2 he, ?_⟩
        rcases hbr with ⟨_, hgs, hev, _⟩ | ⟨hne, hgs, hev, _⟩
        · intro r
          rw [hgs, hev]
          exact hg r
        · exact ginv_union st.uf pr.1.id pr.2.id _ ra rb hne hgs hev hg
      · rw [if_neg h3]
        exact ⟨hw, he, hg⟩

theorem stInv_fold (T : ℚ) (prs : List (HashResult × HashResult)) :
    ∀ st : CmpState, StInv st → StInv (prs.foldl (cmpStep T) st) := by
  induction prs with
  | nil => intro st h; exact h
  | cons pr rest ih =>
    intro st h
    exact ih _ (stInv_step T st pr h)

theorem stInv_run (T : ℚ) (buckets : List (List HashResult)) :
    StInv (runBuckets T buckets) :=
  stInv_fold T _ emptyCmp stInv_empty

/-! ### The collection loop -/

theorem gmPush_mem_entries {gm : List (Nat × List Nat)} {root i : Nat}
    {rm : Nat × List Nat} (h : rm ∈ gmPush gm root i) :
    ∀ j ∈ rm.2, (∃ ms0, (rm.1, ms0) ∈ gm ∧ j ∈ ms0) ∨ (rm.1 = root ∧ j = i) := by
  induction gm with
  | nil =>
    simp only [gmPush, List.mem_singleton] at h
    subst h
    intro j hj
    simp only [List.mem_singleton] at hj
    exact Or.inr ⟨rfl, hj⟩
  | cons e rest ih =>
    obtain ⟨r2, v⟩ := e
    unfold gmPush at h
    by_cases hr : r2 = root
    · rw [if_pos hr] at h
      rcases List.mem_cons.mp h with h | h
      · subst h
        intro j hj
        rcases List.mem_append.mp hj with hj | hj
        · exact Or.inl ⟨v, List.mem_cons_self _ _, hj⟩
        · simp only [List.mem_singleton] at hj
          exact Or.inr ⟨hr, hj⟩
      · intro j hj
        exact Or.inl ⟨rm.2, List.mem_cons_of_mem _ h, hj⟩
    · rw [if_neg hr] at h
      rcases List.mem_cons.mp h with h | h
      · subst h
        intro j hj
        exact Or.inl ⟨v, List.mem_cons_self _ _, hj⟩
      · intro j hj
        rcases ih h j hj with ⟨ms0, hms0, hjm⟩ | hroot
        · exact Or.inl ⟨ms0, List.mem_cons_of_mem _ hms0, hjm⟩
        · exact Or.inr hroot

theorem gmPush_mem_grow {gm : List (Nat × List Nat)} {root i : Nat}
    {r : Nat} {ms : List Nat} (h : (r, ms) ∈ gm) :
    ∃ ms2, (r, ms2) ∈ gmPush gm root i ∧ ∀ j ∈ ms, j ∈ ms2 := by
  induction gm with
  | nil => cases h
  | cons e rest ih =>
    obtain ⟨r2, v⟩ := e
    unfold gmPush
    by_cases hr : r2 = root
    · rw [if_pos hr]
      rcases List.mem_cons.mp h with h | h
      · obtain ⟨h1, h2⟩ := Prod.mk.injEq .. ▸ h
        refine ⟨v ++ [i], ?_, ?_⟩
        · rw [← h1]
          exact List.mem_cons_self _ _
        · intro j hj
          rw [h2] at hj
          exact List.mem_append.mpr (Or.inl hj)
      · exact ⟨ms, List.mem_cons_of_mem _ h, fun j hj => hj⟩
    · rw [if_neg hr]
      rcases List.mem_cons.mp h with h | h
      · refine ⟨ms, List.mem_cons.mpr (Or.inl h), fun j hj => hj⟩
      · obtain ⟨ms2, hm, hs⟩ := ih h
        exact ⟨ms2, List.mem_cons_of_mem _ hm, hs⟩

theorem gmPush_self (gm : List (Nat × List Nat)) (root i : Nat) :
    ∃ ms2, (root, ms2) ∈ gmPush gm root i ∧ i ∈ ms2 := by
  induction gm with
  | nil => exact ⟨[i], List.mem_singleton.mpr rfl, List.mem_singleton.mpr rfl⟩
  | cons e rest ih =>
    obtain ⟨r2, v⟩ := e
    unfold gmPush
    by_cases hr : r2 = root
    · rw [if_pos hr]
      refine ⟨v ++ [i], ?_, List.mem_append.mpr (Or.inr (List.mem_singleton.mpr rfl))⟩
      rw [hr]
      exact List.mem_cons_self _ _
    · rw [if_neg hr]
      obtain ⟨ms2, hm, hi⟩ := ih
      exact ⟨ms2, List.mem_cons_of_mem _ hm, hi⟩

theorem collect_go (m : List (Nat × Nat)) :
    ∀ (hs : List HashResult) (gm : List (Nat × List Nat)) (mc : List (Nat × Nat)),
      WFp mc → (∀ y s, Chases mc y s ↔ Chases m y s) →
      (∀ rm ∈ gm, ∀ j ∈ rm.2, Chases m j rm.1) →
      (∀ rm ∈ (hs.foldl (fun st h =>
          let fr := ufFind st.2 h.id
          (gmPush st.1 fr.1 h.id, fr.2)) (gm, mc)).1, ∀ j ∈ rm.2, Chases m j rm.1) ∧
      (∀ h ∈ hs, ∃ rm ∈ (hs.foldl (fun st h =>
          let fr := ufFind st.2 h.id
          (gmPush st.1 fr.1 h.id, fr.2)) (gm, mc)).1,
        h.id ∈ rm.2 ∧ Chases m h.id rm.1) ∧
      (∀ rm ∈ gm, ∃ ms2, (rm.1, ms2) ∈ (hs.foldl (fun st h =>
          let fr := ufFind st.2 h.id
          (gmPush st.1 fr.1 h.id, fr.2)) (gm, mc)).1 ∧ ∀ j ∈ rm.2, j ∈ ms2) := by
  intro hs
  induction hs with
  | nil =>
    intro gm mc hw hiff hq
    refine ⟨hq, by simp, ?_⟩
    intro rm hrm
    exact ⟨rm.2, by simpa using hrm, fun j hj => hj⟩
  | cons h rest ih =>
    intro gm mc hw hiff hq
    simp only [List.foldl_cons]
    obtain ⟨hfc, hfiff, hfw, _⟩ := ufFind_spec hw h.id
    have hchase : Chases m h.id (ufFind mc h.id).1 :=
      (hiff h.id (ufFind mc h.id).1).mp hfc
    have hiff2 : ∀ y s, Chases (ufFind mc h.id).2 y s ↔ Chases m y s :=
      fun y s => (hfiff y s).trans (hiff y s)
    have hq2 : ∀ rm ∈ gmPush gm (ufFind mc h.id).1 h.id, ∀ j ∈ rm.2,
        Chases m j rm.1 := by
      intro rm hrm j hj
      rcases gmPush_mem_entries hrm j hj with ⟨ms0, hms0, hjm⟩ | ⟨hr, hj2⟩
      · exact hq (rm.1, ms0) hms0 j hjm
      · rw [hr, hj2]
        exact hchase
    obtain ⟨c1, c2, c3⟩ := ih (gmPush gm (ufFind mc h.id).1 h.id)
      (ufFind mc h.id).2 hfw hiff2 hq2
    refine ⟨c1, ?_, ?_⟩
    · intro h2 hh2
      rcases List.mem_cons.mp hh2 with rfl | hh2
      · obtain ⟨ms2, hms2, hid⟩ := gmPush_self gm (ufFind mc h2.id).1 h2.id
        obtain ⟨ms3, hms3, hsub⟩ := c3 ((ufFind mc h2.id).1, ms2) hms2
        exact ⟨((ufFind mc h2.id).1, ms3), hms3, hsub h2.id hid, hchase⟩
      · exact c2 h2 hh2
    · intro rm hrm
      obtain ⟨ms2, hms2, hsub2⟩ := gmPush_mem_grow hrm
      obtain ⟨ms3, hms3, hsub3⟩ := c3 (rm.1, ms2) hms2
      exact ⟨ms3, hms3, fun j hj => hsub3 j (hsub2 j hj)⟩

theorem collectMembers_spec (hashes : List HashResult) (m : List (Nat × Nat))
    (hw : WFp m) :
    (∀ rm ∈ (collectMembers hashes m).1, ∀ j ∈ rm.2, Chases m j rm.1) ∧
    (∀ h ∈ hashes, ∃ rm ∈ (collectMembers hashes m).1,
      h.id ∈ rm.2 ∧ Chases m h.id rm.1) := by
  obtain ⟨c1, c2, _⟩ := collect_go m hashes [] m hw (fun y s => Iff.rfl)
    (by intro rm hrm; cases hrm)
  exact ⟨c1, c2⟩

/-! ## Claim C1: the reported group similarity -/

theorem mem_compareAndGroup (hashes : List HashResult) (photos : List Photo)
    (threshold : ℚ) (g : SimilarityGroup)
    (hg : g ∈ compareAndGroup hashes photos threshold) :
    ∃ root ms,
      (root, ms) ∈ (collectMembers hashes
        (runBuckets threshold
          ((buildDateBuckets hashes photos).map (·.2))).uf.parent).1 ∧
      mkGroup photos threshold
        (runBuckets threshold
          ((buildDateBuckets hashes photos).map (·.2))).uf.gsim root ms = some g :=
  mem_compareAndGroupWith hashes photos threshold _ g hg

/-- Claim C1 (amended): every emitted group's similarity is the minimum of
the similarities of the unions whose receiving root is the group's final
representative; union records held by absorbed roots are discarded, so
this need not be the minimum over all unions that built the group. -/
theorem group_similarity_received_min (hashes : List HashResult)
    (photos : List Photo) (threshold : ℚ) (g : SimilarityGroup)
    (hg : g ∈ compareAndGroup hashes photos threshold) :
    ∃ r,
      (∀ i ∈ g.photos.map Photo.id,
        Chases (runBuckets threshold
          ((buildDateBuckets hashes photos).map (·.2))).uf.parent i r) ∧
      ((runBuckets threshold
          ((buildDateBuckets hashes photos).map (·.2))).uf.events.filter
        (fun e => e.rootA = r)) ≠ [] ∧
      g.similarity = minEv (((runBuckets threshold
          ((buildDateBuckets hashes photos).map (·.2))).uf.events.filter
        (fun e => e.rootA = r)).map UEvent.sim) := by
  set st := runBuckets threshold ((buildDateBuckets hashes photos).map (·.2)) with hst
  obtain ⟨hw, he, hgi⟩ := stInv_run threshold ((buildDateBuckets hashes photos).map (·.2))
  obtain ⟨root, ms, hrm, hmk⟩ := mem_compareAndGroup hashes photos threshold g hg
  obtain ⟨hph, hlen, hsim⟩ := mkGroup_spec _ _ _ _ _ _ hmk
  obtain ⟨hcm1, _⟩ := collectMembers_spec hashes st.uf.parent hw
  have hmem : ∀ i ∈ g.photos.map Photo.id, Chases st.uf.parent i root := by
    intro i hi
    rw [hph, map_id_filterMap_photoFind] at hi
    exact hcm1 (root, ms) hrm i (dedupFirst_subset ms i (List.mem_of_mem_filter hi))
  have hnodup : (g.photos.map Photo.id).Nodup := by
    rw [hph, map_id_filterMap_photoFind]
    exact (dedupFirst_nodup ms).filter _
  have hlen2 : 2 ≤ (g.photos.map Photo.id).length := by
    rw [List.length_map]
    exact hlen
  have hne_root : ∃ i ∈ g.photos.map Photo.id, i ≠ root := by
    match hids : g.photos.map Photo.id, hlen2, hnodup with
    | i1 :: i2 :: rest, _, hnd =>
      have h12 : i1 ≠ i2 := by
        rw [List.nodup_cons] at hnd
        exact fun hc => hnd.1 (hc ▸ List.mem_cons_self i2 rest)
      by_cases hi1 : i1 = root
      · exact ⟨i2, List.mem_cons_of_mem _ (List.mem_cons_self _ _),
          fun hc => h12 (hi1.trans hc.symm)⟩
      · exact ⟨i1, List.mem_cons_self _ _, hi1⟩
  obtain ⟨i, hi, hir⟩ := hne_root
  obtain ⟨y, hy, hylk⟩ := chases_last_edge (hmem i hi) hir
  have hsome : (alookup root st.uf.gsim).isSome :=
    he y root hylk (fun hc => hy hc.symm)
  have hgr := hgi root
  by_cases hemp : (st.uf.events.filter (fun e => e.rootA = root)).isEmpty
  · rw [hemp] at hgr
    simp only [if_pos] at hgr
    rw [hgr] at hsome
    cases hsome
  · rw [if_neg (by simpa using hemp)] at hgr
    refine ⟨root, hmem, by simpa using hemp, ?_⟩
    rw [hsim, hgr]
    rfl

set_option maxRecDepth 100000 in
theorem weakest_link_counterexample :
    (compareAndGroup cxHashes cxPhotos (9/10)).map
      (fun g => (g.photos.map Photo.id, g.similarity)) = [([1, 2, 3, 4, 5], 59/64)] ∧
    ((runBuckets (9/10)
        ((buildDateBuckets cxHashes cxPhotos).map (·.2))).uf.events.filter
      (fun e => e.a ∈ [1, 2, 3, 4, 5] ∧ e.b ∈ [1, 2, 3, 4, 5])).map UEvent.sim =
      [231/256, 123/128, 1, 59/64] ∧
    minEv [231/256, 123/128, 1, 59/64] = 231/256 ∧
    ((231 : ℚ)/256) ≠ 59/64 := by
  with_unfolding_all decide

set_option maxRecDepth 100000 in
theorem group_similarity_received_min_witness :
    (⟨[⟨1, none⟩, ⟨2, none⟩, ⟨3, none⟩, ⟨4, none⟩, ⟨5, none⟩], (59 : ℚ)/64⟩ :
        SimilarityGroup) ∈ compareAndGroup cxHashes cxPhotos (9/10) ∧
    ∃ r,
      (∀ i ∈ ((⟨[⟨1, none⟩, ⟨2, none⟩, ⟨3, none⟩, ⟨4, none⟩, ⟨5, none⟩],
          (59 : ℚ)/64⟩ : SimilarityGroup).photos.map Photo.id),
        Chases (runBuckets (9/10)
          ((buildDateBuckets cxHashes cxPhotos).map (·.2))).uf.parent i r) ∧
      ((runBuckets (9/10)
          ((buildDateBuckets cxHashes cxPhotos).map (·.2))).uf.events.filter
        (fun e => e.rootA = r)) ≠ [] ∧
      (⟨[⟨1, none⟩, ⟨2, none⟩, ⟨3, none⟩, ⟨4, none⟩, ⟨5, none⟩],
          (59 : ℚ)/64⟩ : SimilarityGroup).similarity =
        minEv (((runBuckets (9/10)
          ((buildDateBuckets cxHashes cxPhotos).map (·.2))).uf.events.filter
        (fun e => e.rootA = r)).map UEvent.sim) :=
  have hmem : (⟨[⟨1, none⟩, ⟨2, none⟩, ⟨3, none⟩, ⟨4, none⟩, ⟨5, none⟩],
      (59 : ℚ)/64⟩ : SimilarityGroup) ∈ compareAndGroup cxHashes cxPhotos (9/10) := by
    with_unfolding_all decide
  ⟨hmem, group_similarity_received_min cxHashes cxPhotos (9/10) _ hmem⟩

set_option maxRecDepth 100000 in
/-- Claim C2, counterexample: two byte-identical images taken 10 days
apart are never compared under date bucketing (no shared bucket), so the
bucketed run emits no group while the forced single global bucket groups
them (one group with members 1 and 2 at similarity 1). -/
theorem bucketing_transparency_counterexample :
    compareAndGroup farHashes farPhotos (9/10) = [] ∧
    (compareAndGroupWith farHashes farPhotos (9/10) [farHashes]).map
      (fun g => (g.photos.map Photo.id, g.similarity)) = [([1, 2], 1)] ∧
    ([] : List (List Nat × ℚ)) ≠ [([1, 2], (1 : ℚ))] := by
  with_unfolding_all decide

theorem cmpStep_compared_mono (T : ℚ) (s : CmpState) (pr : HashResult × HashResult)
    {q : Nat × Nat} (h : q ∈ s.compared) : q ∈ (cmpStep T s pr).compared := by
  unfold cmpStep
  by_cases h1 : pr.1.id = pr.2.id
  · rw [if_pos h1]; exact h
  · rw [if_neg h1]
    by_cases h2 : pairKey pr.1.id pr.2.id ∈ s.compared
    · rw [if_pos h2]; exact h
    · rw [if_neg h2]
      by_cases h3 : T ≤ similarity pr.1.hash pr.2.hash
      · rw [if_pos h3]
        exact List.mem_append.mpr (Or.inl h)
      · rw [if_neg h3]
        exact List.mem_append.mpr (Or.inl h)

theorem cmpStep_adds_key (T : ℚ) (s : CmpState) (pr : HashResult × HashResult)
    (h1 : pr.1.id ≠ pr.2.id) :
    pairKey pr.1.id pr.2.id ∈ (cmpStep T s pr).compared := by
  unfold cmpStep
  rw [if_neg h1]
  by_cases h2 : pairKey pr.1.id pr.2.id ∈ s.compared
  · rw [if_pos h2]; exact h2
  · rw [if_neg h2]
    by_cases h3 : T ≤ similarity pr.1.hash pr.2.hash
    · rw [if_pos h3]
      exact List.mem_append.mpr (Or.inr (List.mem_singleton.mpr rfl))
    · rw [if_neg h3]
      exact List.mem_append.mpr (Or.inr (List.mem_singleton.mpr rfl))

theorem fold_compared_mono (T : ℚ) (prs : List (HashResult × HashResult)) :
    ∀ (s : CmpState) {q : Nat × Nat}, q ∈ s.compared →
      q ∈ (prs.foldl (cmpStep T) s).compared := by
  induction prs with
  | nil => intro s q h; exact h
  | cons pr rest ih =>
    intro s q h
    exact ih _ (cmpStep_compared_mono T s pr h)

theorem fold_covers (T : ℚ) (prs : List (HashResult × HashResult)) :
    ∀ (s : CmpState), ∀ pr ∈ prs, pr.1.id ≠ pr.2.id →
      pairKey pr.1.id pr.2.id ∈ (prs.foldl (cmpStep T) s).compared := by
  induction prs with
  | nil => intro s pr h; cases h
  | cons p0 rest ih =>
    intro s pr hpr hne
    rcases List.mem_cons.mp hpr with rfl | hpr
    · exact fold_compared_mono T rest _ (cmpStep_adds_key T s pr hne)
    · exact ih _ pr hpr hne

theorem cmpStep_skip (T : ℚ) (s : CmpState) (pr : HashResult × HashResult)
    (h : pr.1.id = pr.2.id ∨ pairKey pr.1.id pr.2.id ∈ s.compared) :
    cmpStep T s pr = s := by
  unfold cmpStep
  rcases h with h | h
  · rw [if_pos h]
  · by_cases h1 : pr.1.id = pr.2.id
    · rw [if_pos h1]
    · rw [if_neg h1, if_pos h]

theorem fold_replay (T : ℚ) (prs : List (HashResult × HashResult)) :
    ∀ (s : CmpState),
      (∀ pr ∈ prs, pr.1.id = pr.2.id ∨ pairKey pr.1.id pr.2.id ∈ s.compared) →
      prs.foldl (cmpStep T) s = s := by
  induction prs with
  | nil => intro s _; rfl
  | cons pr rest ih =>
    intro s hcov
    have hskip : cmpStep T s pr = s :=
      cmpStep_skip T s pr (hcov pr (List.mem_cons_self _ _))
    rw [List.foldl_cons, hskip]
    exact ih s (fun p hp => hcov p (List.mem_cons_of_mem _ hp))

/-- Re-running the same bucket list after a full pass changes nothing:
every distinct-id pair is already in the compared set. -/
theorem runBuckets_triple (T : ℚ) (hashes : List HashResult) :
    runBuckets T [hashes, hashes, hashes] = runBuckets T [hashes] := by
  unfold runBuckets
  have hflat3 : ([hashes, hashes, hashes].flatMap allPairs) =
      allPairs hashes ++ (allPairs hashes ++ (allPairs hashes ++ [])) := by
    simp [List.flatMap]
  have hflat1 : ([hashes].flatMap allPairs) = allPairs hashes ++ [] := by
    simp [List.flatMap]
  rw [hflat3, hflat1, List.foldl_append, List.foldl_append, List.foldl_append,
    List.foldl_append]
  set s1 := (allPairs hashes).foldl (cmpStep T) emptyCmp with hs1
  have hrep : (allPairs hashes).foldl (cmpStep T) s1 = s1 := by
    apply fold_replay
    intro pr hpr
    by_cases hne : pr.1.id = pr.2.id
    · exact Or.inl hne
    · exact Or.inr (fold_covers T (allPairs hashes) emptyCmp pr hpr hne)
  rw [hrep]
  have hrep2 : (allPairs hashes).foldl (cmpStep T) s1 = s1 := hrep
  simp only [List.foldl_nil]
  rw [hrep2]

theorem distribute_same_day (photos : List Photo) (D : Int) :
    ∀ (hs : List HashResult) (v1 v2 v3 u : List HashResult),
      (∀ h ∈ hs, ∃ p t, photoFind photos h.id = some p ∧ p.createdAt = some t ∧
        t.fdiv DAY_MS = D) →
      hs.foldl (distributeHash photos)
        ([(BKey.day (D - 1), v1), (BKey.day D, v2), (BKey.day (D + 1), v3)], u) =
      ([(BKey.day (D - 1), v1 ++ hs), (BKey.day D, v2 ++ hs),
        (BKey.day (D + 1), v3 ++ hs)], u) := by
  intro hs
  induction hs with
  | nil =>
    intro v1 v2 v3 u _
    simp
  | cons h rest ih =>
    intro v1 v2 v3 u hday
    obtain ⟨p, t, hf, hc, hd⟩ := hday h (List.mem_cons_self _ _)
    have e1 : ¬(D - 1 = D) := by omega
    have e2 : ¬(D - 1 = D + 1) := by omega
    have e3 : ¬(D = D + 1) := by omega
    have hstep : distributeHash photos
        ([(BKey.day (D - 1), v1), (BKey.day D, v2), (BKey.day (D + 1), v3)], u) h =
        ([(BKey.day (D - 1), v1 ++ [h]), (BKey.day D, v2 ++ [h]),
          (BKey.day (D + 1), v3 ++ [h])], u) := by
      unfold distributeHash
      simp only [hf, hc, hd]
      simp [bucketsAdd, e1, e2, e3]
    rw [List.foldl_cons, hstep,
      ih (v1 ++ [h]) (v2 ++ [h]) (v3 ++ [h]) u
        (fun h2 hh2 => hday h2 (List.mem_cons_of_mem _ hh2))]
    simp

theorem buildDateBuckets_same_day (hashes : List HashResult)
    (photos : List Photo) (D : Int) (h0 : hashes ≠ [])
    (hday : ∀ h ∈ hashes, ∃ p t, photoFind photos h.id = some p ∧
      p.createdAt = some t ∧ t.fdiv DAY_MS = D) :
    buildDateBuckets hashes photos =
      [(BKey.day (D - 1), hashes), (BKey.day D, hashes), (BKey.day (D + 1), hashes)] := by
  match hashes, h0 with
  | h :: rest, _ =>
    obtain ⟨p, t, hf, hc, hd⟩ := hday h (List.mem_cons_self _ _)
    have e1 : ¬(D - 1 = D) := by omega
    have e2 : ¬(D - 1 = D + 1) := by omega
    have e3 : ¬(D = D + 1) := by omega
    have hstep : distributeHash photos ([], []) h =
        ([(BKey.day (D - 1), [h]), (BKey.day D, [h]), (BKey.day (D + 1), [h])], []) := by
      unfold distributeHash
      simp only [hf, hc, hd]
      simp [bucketsAdd, e1, e2, e3]
    have hfold : (h :: rest).foldl (distributeHash photos) ([], []) =
        ([(BKey.day (D - 1), h :: rest), (BKey.day D, h :: rest),
          (BKey.day (D + 1), h :: rest)], []) := by
      rw [List.foldl_cons, hstep,
        distribute_same_day photos D rest [h] [h] [h] []
          (fun h2 hh2 => hday h2 (List.mem_cons_of_mem _ hh2))]
      simp
    unfold buildDateBuckets
    rw [hfold]
    simp

/-- Claim C2 (amended): when every image resolves to a photo whose
timestamp falls on one common calendar day D, the bucketed run is
identical to the forced single-global-bucket run: the three identical
day buckets replay the same pairs, and replayed pairs are skipped by the
compared-pairs set. -/
theorem bucketing_same_day (hashes : List HashResult) (photos : List Photo)
    (threshold : ℚ) (D : Int)
    (hday : ∀ h ∈ hashes, ∃ p t, photoFind photos h.id = some p ∧
      p.createdAt = some t ∧ t.fdiv DAY_MS = D) :
    compareAndGroup hashes photos threshold =
      compareAndGroupWith hashes photos threshold [hashes] := by
  rcases eq_or_ne hashes [] with rfl | hne
  · have hb : buildDateBuckets [] photos = [(BKey.all, [])] := by
      unfold buildDateBuckets
      simp
    unfold compareAndGroup
    rw [hb]
    rfl
  · have hb := buildDateBuckets_same_day hashes photos D hne hday
    unfold compareAndGroup
    rw [hb]
    show compareAndGroupWith hashes photos threshold [hashes, hashes, hashes] =
      compareAndGroupWith hashes photos threshold [hashes]
    unfold compareAndGroupWith
    rw [runBuckets_triple]

set_option maxRecDepth 100000 in
theorem bucketing_same_day_witness :
    compareAndGroup sameDayHashes sameDayPhotos (9/10) =
      compareAndGroupWith sameDayHashes sameDayPhotos (9/10) [sameDayHashes] :=
  bucketing_same_day sameDayHashes sameDayPhotos (9/10) 0
    (by
      intro h hh
      rcases List.mem_cons.mp hh with rfl | hh
      · exact ⟨⟨1, some 0⟩, 0, by with_unfolding_all decide, rfl,
          by with_unfolding_all decide⟩
      · rcases List.mem_cons.mp hh with rfl | hh
        · exact ⟨⟨2, some 1⟩, 1, by with_unfolding_all decide, rfl,
            by with_unfolding_all decide⟩
        · cases hh)

theorem ufUnion_sameRoot (st : UFState) (a b : Nat) (sim : ℚ)
    (hw : WFp st.parent) :
    ∀ x y, SameRoot (ufUnion st a b sim).parent x y ↔
      (SameRoot st.parent x y ∨
       (SameRoot st.parent x a ∧ SameRoot st.parent y b) ∨
       (SameRoot st.parent x b ∧ SameRoot st.parent y a)) := by
  obtain ⟨ra, rb, hca, hcb, hw2, _, hbr⟩ := ufUnion_spec st a b sim hw
  rcases hbr with ⟨heq, _, _, hiff⟩ | ⟨hne, _, _, hiff⟩
  · intro x y
    constructor
    · rintro ⟨r, h1, h2⟩
      exact Or.inl ⟨r, (hiff x r).mp h1, (hiff y r).mp h2⟩
    · rintro (⟨r, h1, h2⟩ | ⟨⟨r1, hx, hxa⟩, ⟨r2, hy, hyb⟩⟩ |
        ⟨⟨r1, hx, hxb⟩, ⟨r2, hy, hya⟩⟩)
      · exact ⟨r, (hiff x r).mpr h1, (hiff y r).mpr h2⟩
      · have e1 : r1 = ra := chases_det hxa hca
        have e2 : r2 = rb := chases_det hyb hcb
        refine ⟨ra, (hiff x ra).mpr (e1 ▸ hx), (hiff y ra).mpr ?_⟩
        rw [heq, ← e2]
        exact hy
      · have e1 : r1 = rb := chases_det hxb hcb
        have e2 : r2 = ra := chases_det hya hca
        refine ⟨ra, (hiff x ra).mpr ?_, (hiff y ra).mpr (e2 ▸ hy)⟩
        rw [heq, ← e1]
        exact hx
  · intro x y
    constructor
    · rintro ⟨r, h1, h2⟩
      rcases (hiff x r).mp h1 with ⟨hx, hxrb⟩ | ⟨hx, hxra⟩
      · rcases (hiff y r).mp h2 with ⟨hy, _⟩ | ⟨hy, hyra⟩
        · exact Or.inl ⟨r, hx, hy⟩
        · refine Or.inr (Or.inl ⟨⟨ra, ?_, hca⟩, ⟨rb, hy, hcb⟩⟩)
          rw [← hyra]
          exact hx
      · rcases (hiff y r).mp h2 with ⟨hy, _⟩ | ⟨hy, _⟩
        · refine Or.inr (Or.inr ⟨⟨rb, hx, hcb⟩, ⟨ra, ?_, hca⟩⟩)
          rw [← hxra]
          exact hy
        · exact Or.inl ⟨rb, hx, hy⟩
    · rintro (⟨r, h1, h2⟩ | ⟨⟨r1, hx, hxa⟩, ⟨r2, hy, hyb⟩⟩ |
        ⟨⟨r1, hx, hxb⟩, ⟨r2, hy, hya⟩⟩)
      · by_cases hr : r = rb
        · exact ⟨ra, (hiff x ra).mpr (Or.inr ⟨hr ▸ h1, rfl⟩),
            (hiff y ra).mpr (Or.inr ⟨hr ▸ h2, rfl⟩)⟩
        · exact ⟨r, (hiff x r).mpr (Or.inl ⟨h1, hr⟩),
            (hiff y r).mpr (Or.inl ⟨h2, hr⟩)⟩
      · have e1 : r1 = ra := chases_det hxa hca
        have e2 : r2 = rb := chases_det hyb hcb
        refine ⟨ra, (hiff x ra).mpr (Or.inl ⟨e1 ▸ hx, hne⟩),
          (hiff y ra).mpr (Or.inr ⟨e2 ▸ hy, rfl⟩)⟩
      · have e1 : r1 = rb := chases_det hxb hcb
        have e2 : r2 = ra := chases_det hya hca
        refine ⟨ra, (hiff x ra).mpr (Or.inr ⟨e1 ▸ hx, rfl⟩),
          (hiff y ra).mpr (Or.inl ⟨e2 ▸ hy, hne⟩)⟩

theorem cmpStep_refines (T TT : ℚ) (hTT : T ≤ TT) (s sp : CmpState)
    (pr : HashResult × HashResult)
    (hw : WFp s.uf.parent) (hwp : WFp sp.uf.parent)
    (hcmp : sp.compared = s.compared)
    (href : Refines sp.uf.parent s.uf.parent) :
    (cmpStep TT sp pr).compared = (cmpStep T s pr).compared ∧
    Refines (cmpStep TT sp pr).uf.parent (cmpStep T s pr).uf.parent := by
  unfold cmpStep
  by_cases h1 : pr.1.id = pr.2.id
  · rw [if_pos h1, if_pos h1]
    exact ⟨hcmp, href⟩
  · rw [if_neg h1, if_neg h1]
    by_cases h2 : pairKey pr.1.id pr.2.id ∈ s.compared
    · rw [if_pos h2, if_pos (hcmp ▸ h2)]
      exact ⟨hcmp, href⟩
    · rw [if_neg h2, if_neg (hcmp ▸ h2)]
      by_cases h3 : TT ≤ similarity pr.1.hash pr.2.hash
      · have h4 : T ≤ similarity pr.1.hash pr.2.hash := le_trans hTT h3
        rw [if_pos h3, if_pos h4]
        refine ⟨by rw [hcmp], ?_⟩
        intro x y hxy
        rw [ufUnion_sameRoot s.uf pr.1.id pr.2.id _ hw x y]
        rw [ufUnion_sameRoot sp.uf pr.1.id pr.2.id _ hwp x y] at hxy
        rcases hxy with h | ⟨ha, hb⟩ | ⟨ha, hb⟩
        · exact Or.inl (href x y h)
        · exact Or.inr (Or.inl ⟨href _ _ ha, href _ _ hb⟩)
        · exact Or.inr (Or.inr ⟨href _ _ ha, href _ _ hb⟩)
      · rw [if_neg h3]
        by_cases h4 : T ≤ similarity pr.1.hash pr.2.hash
        · rw [if_pos h4]
          refine ⟨by rw [hcmp], ?_⟩
          intro x y hxy
          rw [ufUnion_sameRoot s.uf pr.1.id pr.2.id _ hw x y]
          exact Or.inl (href x y hxy)
        · rw [if_neg h4]
          exact ⟨by rw [hcmp], href⟩

theorem fold_refines (T TT : ℚ) (hTT : T ≤ TT)
    (prs : List (HashResult × HashResult)) :
    ∀ (s sp : CmpState), StInv s → StInv sp →
      sp.compared = s.compared → Refines sp.uf.parent s.uf.parent →
      (prs.foldl (cmpStep TT) sp).compared = (prs.foldl (cmpStep T) s).compared ∧
      Refines (prs.foldl (cmpStep TT) sp).uf.parent
        (prs.foldl (cmpStep T) s).uf.parent := by
  induction prs with
  | nil => intro s sp _ _ hcmp href; exact ⟨hcmp, href⟩
  | cons pr rest ih =>
    intro s sp hs hsp hcmp href
    obtain ⟨hc2, hr2⟩ := cmpStep_refines T TT hTT s sp pr hs.1 hsp.1 hcmp href
    exact ih (cmpStep T s pr) (cmpStep TT sp pr)
      (stInv_step T s pr hs) (stInv_step TT sp pr hsp) hc2 hr2

theorem runBuckets_refines (T TT : ℚ) (hTT : T ≤ TT)
    (buckets : List (List HashResult)) :
    Refines (runBuckets TT buckets).uf.parent (runBuckets T buckets).uf.parent :=
  (fold_refines T TT hTT _ emptyCmp emptyCmp stInv_empty stInv_empty rfl
    (fun x y h => h)).2

theorem mem_foldl_dedup_of_mem_acc {l : List Nat} {acc : List Nat} {x : Nat}
    (h : x ∈ acc) :
    x ∈ l.foldl (fun acc x => if x ∈ acc then acc else acc ++ [x]) acc := by
  induction l generalizing acc with
  | nil => exact h
  | cons y ys ih =>
    simp only [List.foldl_cons]
    by_cases hy : y ∈ acc
    · rw [if_pos hy]
      exact ih h
    · rw [if_neg hy]
      exact ih (List.mem_append.mpr (Or.inl h))

theorem mem_dedupFirst_of_mem {l : List Nat} {x : Nat} (h : x ∈ l) :
    x ∈ dedupFirst l := by
  unfold dedupFirst
  suffices hgen : ∀ (l2 : List Nat) (acc : List Nat), x ∈ l2 →
      x ∈ l2.foldl (fun acc x => if x ∈ acc then acc else acc ++ [x]) acc by
    exact hgen l [] h
  intro l2
  induction l2 with
  | nil => intro acc hx; cases hx
  | cons y ys ih =>
    intro acc hx
    simp only [List.foldl_cons]
    rcases List.mem_cons.mp hx with rfl | hx
    · by_cases hy : x ∈ acc
      · rw [if_pos hy]
        exact mem_foldl_dedup_of_mem_acc hy
      · rw [if_neg hy]
        exact mem_foldl_dedup_of_mem_acc
          (List.mem_append.mpr (Or.inr (List.mem_singleton.mpr rfl)))
    · by_cases hy : y ∈ acc
      · rw [if_pos hy]
        exact ih acc hx
      · rw [if_neg hy]
        exact ih _ hx

theorem gmPush_keys_of_mem {gm : List (Nat × List Nat)} {root i : Nat}
    (h : root ∈ gmKeys gm) : gmKeys (gmPush gm root i) = gmKeys gm := by
  induction gm with
  | nil => cases h
  | cons e rest ih =>
    obtain ⟨r2, v⟩ := e
    unfold gmPush
    by_cases hr : r2 = root
    · rw [if_pos hr]
      rfl
    · rw [if_neg hr]
      have hmem : root ∈ gmKeys rest := by
        rcases List.mem_cons.mp h with hc | hc
        · exact absurd hc.symm hr
        · exact hc
      show r2 :: gmKeys (gmPush rest root i) = r2 :: gmKeys rest
      rw [ih hmem]

theorem gmPush_keys_of_not_mem {gm : List (Nat × List Nat)} {root i : Nat}
    (h : root ∉ gmKeys gm) : gmKeys (gmPush gm root i) = gmKeys gm ++ [root] := by
  induction gm with
  | nil => rfl
  | cons e rest ih =>
    obtain ⟨r2, v⟩ := e
    unfold gmPush
    by_cases hr : r2 = root
    · exact absurd (hr ▸ List.mem_cons_self r2 (gmKeys rest) :
        root ∈ gmKeys ((r2, v) :: rest)) h
    · rw [if_neg hr]
      have hrest : root ∉ gmKeys rest := fun hc => h (List.mem_cons_of_mem _ hc)
      show r2 :: gmKeys (gmPush rest root i) = r2 :: gmKeys rest ++ [root]
      rw [ih hrest, List.cons_append]

theorem gmPush_keys_nodup {gm : List (Nat × List Nat)} {root i : Nat}
    (h : (gmKeys gm).Nodup) : (gmKeys (gmPush gm root i)).Nodup := by
  by_cases hr : root ∈ gmKeys gm
  · rw [gmPush_keys_of_mem hr]
    exact h
  · rw [gmPush_keys_of_not_mem hr]
    rw [List.nodup_append]
    exact ⟨h, List.nodup_singleton root, by simpa using hr⟩

theorem collect_keys_nodup (hashes : List HashResult) :
    ∀ (gm : List (Nat × List Nat)) (mc : List (Nat × Nat)),
      (gmKeys gm).Nodup →
      (gmKeys (hashes.foldl (fun st h =>
        let fr := ufFind st.2 h.id
        (gmPush st.1 fr.1 h.id, fr.2)) (gm, mc)).1).Nodup := by
  induction hashes with
  | nil => intro gm mc h; exact h
  | cons h rest ih =>
    intro gm mc hnd
    simp only [List.foldl_cons]
    exact ih _ _ (gmPush_keys_nodup hnd)

theorem collectMembers_keys_nodup (hashes : List HashResult)
    (m : List (Nat × Nat)) : (gmKeys (collectMembers hashes m).1).Nodup :=
  collect_keys_nodup hashes [] m List.nodup_nil

theorem gm_entry_unique {gm : List (Nat × List Nat)} {r : Nat}
    {ms1 ms2 : List Nat} (hnd : (gmKeys gm).Nodup)
    (h1 : (r, ms1) ∈ gm) (h2 : (r, ms2) ∈ gm) : ms1 = ms2 := by
  induction gm with
  | nil => cases h1
  | cons e rest ih =>
    obtain ⟨r2, v⟩ := e
    have hnd2 : (gmKeys rest).Nodup := (List.nodup_cons.mp hnd).2
    have hr2 : r2 ∉ gmKeys rest := (List.nodup_cons.mp hnd).1
    rcases List.mem_cons.mp h1 with h1 | h1
    · rcases List.mem_cons.mp h2 with h2 | h2
      · have e1 := (Prod.mk.injEq .. ▸ h1).2
        have e2 := (Prod.mk.injEq .. ▸ h2).2
        rw [e1, e2]
      · have hre : r2 = r := (Prod.mk.injEq .. ▸ h1).1.symm
        have : r ∈ gmKeys rest := List.mem_map.mpr ⟨(r, ms2), h2, rfl⟩
        exact absurd (hre ▸ this) hr2
    · rcases List.mem_cons.mp h2 with h2 | h2
      · have hre : r2 = r := (Prod.mk.injEq .. ▸ h2).1.symm
        have : r ∈ gmKeys rest := List.mem_map.mpr ⟨(r, ms1), h1, rfl⟩
        exact absurd (hre ▸ this) hr2
      · exact ih hnd2 h1 h2

theorem two_mem_two_le_length {l : List Nat} {a b : Nat}
    (ha : a ∈ l) (hb : b ∈ l) (hne : a ≠ b) : 2 ≤ l.length := by
  have hsub : ({a, b} : Finset Nat) ⊆ l.toFinset := by
    intro z hz
    rw [List.mem_toFinset]
    rcases Finset.mem_insert.mp hz with rfl | hz
    · exact ha
    · rw [Finset.mem_singleton] at hz
      rw [hz]
      exact hb
  have hcard : ({a, b} : Finset Nat).card = 2 := Finset.card_pair hne
  have h1 := Finset.card_le_card hsub
  have h2 := l.toFinset_card_le
  omega

theorem entry_mem_hash_ids {hashes : List HashResult} {m : List (Nat × Nat)}
    {r : Nat} {ms : List Nat} (h : (r, ms) ∈ (collectMembers hashes m).1) :
    ∀ i ∈ ms, i ∈ hashes.map HashResult.id := by
  intro i hi
  have hflat : i ∈ gmFlat (collectMembers hashes m).1 := by
    unfold gmFlat
    exact List.mem_flatten.mpr ⟨ms, List.mem_map.mpr ⟨(r, ms), h, rfl⟩, hi⟩
  exact (collectMembers_flat hashes m).mem_iff.mp hflat

theorem compareAndGroup_eq (hashes : List HashResult) (photos : List Photo)
    (T : ℚ) :
    compareAndGroup hashes photos T =
      compareAndGroupWith hashes photos T
        ((buildDateBuckets hashes photos).map (·.2)) := rfl

theorem exists_two_distinct {l : List Nat} (h2 : 2 ≤ l.length) (hnd : l.Nodup) :
    ∃ a b, a ∈ l ∧ b ∈ l ∧ a ≠ b := by
  match l, h2, hnd with
  | a :: b :: rest, _, hnd =>
    have hab : a ≠ b := by
      rw [List.nodup_cons] at hnd
      exact fun hc => hnd.1 (hc ▸ List.mem_cons_self b rest)
    exact ⟨a, b, List.mem_cons_self _ _,
      List.mem_cons_of_mem _ (List.mem_cons_self _ _), hab⟩

theorem threshold_monotone_core (hashes : List HashResult) (photos : List Photo)
    (T TT : ℚ) (hTT : T ≤ TT) (buckets : List (List HashResult))
    (g2 : SimilarityGroup)
    (hg2 : g2 ∈ compareAndGroupWith hashes photos TT buckets) :
    ∃ g, g ∈ compareAndGroupWith hashes photos T buckets ∧
      ∀ i ∈ g2.photos.map Photo.id, i ∈ g.photos.map Photo.id := by
  have hwT : WFp (runBuckets T buckets).uf.parent := (stInv_run T buckets).1
  have hwTT : WFp (runBuckets TT buckets).uf.parent := (stInv_run TT buckets).1
  have href : Refines (runBuckets TT buckets).uf.parent
      (runBuckets T buckets).uf.parent := runBuckets_refines T TT hTT buckets
  obtain ⟨root2, ms2, hrm2, hmk2⟩ :=
    mem_compareAndGroupWith hashes photos TT buckets g2 hg2
  obtain ⟨hph2, hlen2, _⟩ := mkGroup_spec _ _ _ _ _ _ hmk2
  obtain ⟨hcmTT, _⟩ := collectMembers_spec hashes _ hwTT
  have hid_mem : ∀ i ∈ g2.photos.map Photo.id,
      i ∈ ms2 ∧ (photoFind photos i).isSome := by
    intro i hi
    rw [hph2, map_id_filterMap_photoFind] at hi
    have h1 := List.mem_filter.mp hi
    exact ⟨dedupFirst_subset ms2 i h1.1, by simpa using h1.2⟩
  have hchase2 : ∀ i ∈ g2.photos.map Photo.id,
      Chases (runBuckets TT buckets).uf.parent i root2 :=
    fun i hi => hcmTT (root2, ms2) hrm2 i (hid_mem i hi).1
  have hnodup2 : (g2.photos.map Photo.id).Nodup := by
    rw [hph2, map_id_filterMap_photoFind]
    exact (dedupFirst_nodup ms2).filter _
  have hlen2b : 2 ≤ (g2.photos.map Photo.id).length := by
    rw [List.length_map]
    exact hlen2
  obtain ⟨i0, i1, hi0, hi1, hne01⟩ := exists_two_distinct hlen2b hnodup2
  obtain ⟨R, hR⟩ := hwT i0
  have hchaseT : ∀ i ∈ g2.photos.map Photo.id,
      Chases (runBuckets T buckets).uf.parent i R := by
    intro i hi
    obtain ⟨r, h1, h2⟩ := href i0 i ⟨root2, hchase2 i0 hi0, hchase2 i hi⟩
    have heq : r = R := chases_det h1 hR
    exact heq ▸ h2
  have hin_hashes : ∀ i ∈ g2.photos.map Photo.id, i ∈ hashes.map HashResult.id :=
    fun i hi => entry_mem_hash_ids hrm2 i (hid_mem i hi).1
  obtain ⟨hcmT, hcmT2⟩ := collectMembers_spec hashes _ hwT
  obtain ⟨h0, hh0, hh0id⟩ := List.mem_map.mp (hin_hashes i0 hi0)
  obtain ⟨rmT, hrmT, hidT, hchT⟩ := hcmT2 h0 hh0
  have hrootT : rmT.1 = R := chases_det (hh0id ▸ hchT) (hchaseT i0 hi0)
  have hkeysnd := collectMembers_keys_nodup hashes (runBuckets T buckets).uf.parent
  have hRentry : (R, rmT.2) ∈
      (collectMembers hashes (runBuckets T buckets).uf.parent).1 := by
    rw [← hrootT]
    exact hrmT
  have hmemT : ∀ i ∈ g2.photos.map Photo.id, i ∈ rmT.2 := by
    intro i hi
    obtain ⟨hih, hihm, hihid⟩ := List.mem_map.mp (hin_hashes i hi)
    obtain ⟨rmI, hrmI, hidI, hchI⟩ := hcmT2 hih hihm
    have hrI : rmI.1 = R := chases_det (hihid ▸ hchI) (hchaseT i hi)
    have hIentry : (R, rmI.2) ∈
        (collectMembers hashes (runBuckets T buckets).uf.parent).1 := by
      rw [← hrI]
      exact hrmI
    have hms : rmI.2 = rmT.2 := gm_entry_unique hkeysnd hIentry hRentry
    rw [← hms]
    exact hihid ▸ hidI
  have hi0T : i0 ∈ rmT.2 := hmemT i0 hi0
  have hi1T : i1 ∈ rmT.2 := hmemT i1 hi1
  have hlenT : ¬rmT.2.length < 2 :=
    Nat.not_lt.mpr (two_mem_two_le_length hi0T hi1T hne01)
  have hmemIds : ∀ i ∈ g2.photos.map Photo.id,
      i ∈ ((dedupFirst rmT.2).filterMap (photoFind photos)).map Photo.id := by
    intro i hi
    rw [map_id_filterMap_photoFind]
    apply List.mem_filter.mpr
    exact ⟨mem_dedupFirst_of_mem (hmemT i hi), by simpa using (hid_mem i hi).2⟩
  have hlenT2 : ¬((dedupFirst rmT.2).filterMap (photoFind photos)).length < 2 := by
    apply Nat.not_lt.mpr
    have h01 := two_mem_two_le_length (hmemIds i0 hi0) (hmemIds i1 hi1) hne01
    rw [List.length_map] at h01
    exact h01
  have hmkT : mkGroup photos T (runBuckets T buckets).uf.gsim R rmT.2 =
      some ⟨(dedupFirst rmT.2).filterMap (photoFind photos),
        (alookup R (runBuckets T buckets).uf.gsim).getD T⟩ := by
    unfold mkGroup
    rw [if_neg hlenT, if_neg hlenT2]
  refine ⟨⟨(dedupFirst rmT.2).filterMap (photoFind photos),
    (alookup R (runBuckets T buckets).uf.gsim).getD T⟩, ?_, ?_⟩
  · unfold compareAndGroupWith
    rw [mem_sortGroups]
    exact List.mem_filterMap.mpr ⟨(R, rmT.2), hRentry, hmkT⟩
  · intro i hi
    exact hmemIds i hi

set_option maxHeartbeats 2000000 in
/-- Claim C5: for a fixed image set and bucket structure, and generally
for the shipped date-bucketed pipeline, raising the threshold only
shrinks or fragments groups: every group emitted at threshold TT >= T is
contained (by member ids) in some group emitted at T. -/
theorem threshold_monotone :
    (∀ (hashes : List HashResult) (photos : List Photo) (T TT : ℚ), T ≤ TT →
      ∀ (buckets : List (List HashResult)) (g2 : SimilarityGroup),
        g2 ∈ compareAndGroupWith hashes photos TT buckets →
        ∃ g, g ∈ compareAndGroupWith hashes photos T buckets ∧
          ∀ i ∈ g2.photos.map Photo.id, i ∈ g.photos.map Photo.id) ∧
    (∀ (hashes : List HashResult) (photos : List Photo) (T TT : ℚ), T ≤ TT →
      ∀ g2 : SimilarityGroup, g2 ∈ compareAndGroup hashes photos TT →
        ∃ g, g ∈ compareAndGroup hashes photos T ∧
          ∀ i ∈ g2.photos.map Photo.id, i ∈ g.photos.map Photo.id) := by
  constructor
  · intro hashes photos T TT hTT buckets g2 hg2
    exact threshold_monotone_core hashes photos T TT hTT buckets g2 hg2
  · intro hashes photos T TT hTT g2 hg2
    have hbk := threshold_monotone_core hashes photos T TT hTT
      ((buildDateBuckets hashes photos).map (·.2)) g2
    rw [← compareAndGroup_eq hashes photos TT] at hbk
    rw [← compareAndGroup_eq hashes photos T] at hbk
    exact hbk hg2

set_option maxHeartbeats 2000000 in
set_option maxRecDepth 100000 in
theorem threshold_monotone_witness :
    (⟨[⟨1, none⟩, ⟨2, none⟩], (1 : ℚ)⟩ : SimilarityGroup) ∈
      compareAndGroup fourHashes fourPhotos (9/10) ∧
    ∃ g, g ∈ compareAndGroup fourHashes fourPhotos (1/2) ∧
      ∀ i ∈ ((⟨[⟨1, none⟩, ⟨2, none⟩], (1 : ℚ)⟩ : SimilarityGroup).photos.map
        Photo.id), i ∈ g.photos.map Photo.id :=
  have hmem : (⟨[⟨1, none⟩, ⟨2, none⟩], (1 : ℚ)⟩ : SimilarityGroup) ∈
      compareAndGroup fourHashes fourPhotos (9/10) := by with_unfolding_all decide
  ⟨hmem, threshold_monotone.2 fourHashes fourPhotos (1/2) (9/10)
    (by norm_num) _ hmem⟩

theorem processQueue_go (items : List (Photo × ItemOutcome)) (c : Nat)
    (acc : List HashEntry) :
    items.foldl (fun acc it =>
      match outcomeResult it.1 it.2 with
      | some r => (acc.1 + 1, acc.2 ++ [r])
      | none => (acc.1 + 1, acc.2)) (c, acc)
    = (c + items.length,
       acc ++ items.filterMap (fun it => outcomeResult it.1 it.2)) := by
  induction items generalizing c acc with
  | nil => simp
  | cons it rest ih =>
    rw [List.foldl_cons, List.filterMap_cons]
    cases hoc : outcomeResult it.1 it.2 with
    | none =>
      simp only [hoc]
      rw [ih]
      simp [Nat.add_assoc, Nat.add_comm 1 rest.length]
    | some r =>
      simp only [hoc]
      rw [ih]
      simp [Nat.add_assoc, Nat.add_comm 1 rest.length]

theorem compareAndGroup_nil (T : ℚ) : compareAndGroup [] [] T = [] := by
  with_unfolding_all rfl

/-- Claim C3: cancellation timing.  When the signal fires while hashing
is in flight, between the phases, or during the comparison loop, the
pipeline returns the empty result as claimed.  But a signal that is
already aborted before the run starts makes the pipeline hang on any
nonempty input: hashPhotos attaches its abort listener after the abort
event has already fired, and processNext refuses to dispatch, so the
promise never settles and analyzePhotos never returns at all (none) --
it does not return an empty result. -/
theorem cancellation_hang :
    analyzePhotosModel [(⟨1, none⟩, .ok fpZero 50 50 50)] (9/10)
      .preStart = none ∧
    analyzePhotosModel [(⟨1, none⟩, .ok fpZero 50 50 50)] (9/10)
      .duringHash = some ⟨[], []⟩ ∧
    analyzePhotosModel [(⟨1, none⟩, .ok fpZero 50 50 50)] (9/10)
      .betweenPhases = some ⟨[], []⟩ ∧
    analyzePhotosModel [(⟨1, none⟩, .ok fpZero 50 50 50)] (9/10)
      .duringCompare = some ⟨[], []⟩ :=
  ⟨rfl, rfl, rfl, rfl⟩

/-- Claim C4: item failures are absorbed.  Every item, including those
whose byte-buffer read or decode fails, counts toward the completion
count; failed items contribute nothing to the result collection; the
pool finishes the whole queue (hashPhotos resolves) and the batch
completes normally, clustering exactly the surviving results. -/
theorem item_failures_absorbed (items : List (Photo × ItemOutcome))
    (T : ℚ) :
    (processQueue items).1 = items.length ∧
    (processQueue items).2 =
      items.filterMap (fun it => outcomeResult it.1 it.2) ∧
    hashPhotosModel items .never =
      some (items.filterMap (fun it => outcomeResult it.1 it.2)) ∧
    analyzePhotosModel items T .never =
      some ⟨compareAndGroup
              ((items.filterMap (fun it => outcomeResult it.1 it.2)).map
                entryHash)
              (items.map (·.1)) T,
            qualityMapOf
              (items.filterMap (fun it => outcomeResult it.1 it.2))⟩ := by
  have h2 : (processQueue items).2 =
      items.filterMap (fun it => outcomeResult it.1 it.2) := by
    unfold processQueue
    rw [processQueue_go]
    simp
  have h1 : (processQueue items).1 = items.length := by
    unfold processQueue
    rw [processQueue_go]
    simp
  have hnever : hashPhotosModel items .never =
      some (processQueue items).2 := rfl
  refine ⟨h1, h2, by rw [hnever, h2], ?_⟩
  cases items with
  | nil =>
    show analyzePhotosModel [] T .never = _
    simp only [List.filterMap_nil, List.map_nil]
    rw [compareAndGroup_nil T]
    rfl
  | cons it rest =>
    have hne : ((it :: rest) :
        List (Photo × ItemOutcome)).isEmpty = false := rfl
    rw [analyzePhotosModel, hne]
    simp only [Bool.false_eq_true, if_false]
    rw [hnever]
    simp only [abortedAfterHash, abortedAfterCompare,
      Bool.false_eq_true, if_false, h2]

end PhotoSort
